import Mathlib

/-!
Verification of the npm-fuzzy scoring and candidate-selection engines.

The TypeScript sources are embedded shallowly:

* JS strings are `List Char` (UTF-16 code units are modelled as Lean
  characters; `toLowerCase` is modelled by `Char.toLower`, and both the
  default array sort on strings and `localeCompare` are modelled by the
  lexicographic order on `List Char`).
* JS numbers are `ℚ` (all arithmetic the engines perform on scores,
  thresholds and sample positions is exact decimal arithmetic in the
  sources' intent; `Math.floor` becomes `Int.floor`, and integer-valued
  index arithmetic becomes `Nat` arithmetic, whose division is the
  floored division the sources write with `Math.floor`).
* Fallible code is embedded in `Except`: `throw new Error(msg)` becomes
  `Except.error msg`, and a caller-supplied scorer that may throw is a
  function into `Except ε ℚ`.  Exception propagation is the `Except`
  bind's short-circuiting.
* `Math.random()` (used only by `extractOne`'s verification pass) is
  modelled by an ambient stream `rand : ℕ → ℕ` of the already-floored
  random indices; the stream is a parameter of the embedding.
* JS arrays of candidate strings are `JSArr`: a length together with an
  index function (`choices[i]` is `get? i`, which is `none` out of
  bounds, matching `undefined`), with the proof that the array is dense
  (callers pass ordinary arrays without holes).
* `Array.prototype.sort(cmp)` is modelled by the stable
  `List.insertionSort` with the relation `cmp x y ≤ 0`; for a consistent
  comparator this is the sorted permutation ECMAScript mandates.
-/

set_option maxRecDepth 40000

deriving instance DecidableEq for Except

namespace NpmFuzzy

/-! ## Tokenizer — src/core/tokenizer.ts -/

/-- Delimiters of `tokenize`: space (32), tab (9), newline (10), dash (45),
underscore (95), exactly the char codes the source tests. -/
def isDelim (c : Char) : Bool :=
  c.toNat = 32 || c.toNat = 9 || c.toNat = 10 || c.toNat = 45 || c.toNat = 95

/-- The single left-to-right scan of `tokenize`, carrying the pending
`tokenChars` accumulator; a finished run is lower-cased and emitted. -/
def tokenizeGo : List Char → List Char → List (List Char)
  | [], cur => if cur.isEmpty then [] else [cur.map Char.toLower]
  | c :: rest, cur =>
    if isDelim c then
      if cur.isEmpty then tokenizeGo rest [] else cur.map Char.toLower :: tokenizeGo rest []
    else tokenizeGo rest (cur ++ [c])

/-- `tokenize(str)`: splits on whitespace/dash/underscore, lower-cases,
emits no empty tokens. -/
def tokenize (s : List Char) : List (List Char) :=
  tokenizeGo s []

/-- Join a token list with single spaces (`tokens.join(' ')`). -/
def joinSpace (ts : List (List Char)) : List Char :=
  List.intercalate [' '] ts

/-- `sortTokens(tokens)`: the small-array special cases of the source,
falling back to the native sort (modelled by `insertionSort`) joined by
spaces. -/
def sortTokens (ts : List (List Char)) : List Char :=
  if ts.length ≤ 1 then joinSpace ts
  else
    match ts with
    | [t0, t1] => if t0 < t1 then t0 ++ ' ' :: t1 else t1 ++ ' ' :: t0
    | _ => joinSpace (List.insertionSort (· ≤ ·) ts)

/-! ## Specification-side edit distance

`levFull` is the textbook recursion the DP of `levenshteinDistance`
implements; `EditStep`/`Transforms` formalise the spec's words
"minimum number of single-character insertions, deletions, substitutions
to transform a into b". -/

/-- Substitution cost: 0 on equal characters, 1 otherwise. -/
def costc (a b : Char) : ℕ :=
  if a = b then 0 else 1

/-- The full-min edit-distance recursion matching the DP cell formula
`min(left + 1, up + 1, diag + cost)`. -/
def levFull : List Char → List Char → ℕ
  | [], t => t.length
  | s, [] => s.length
  | a :: s, b :: t =>
    min (levFull s (b :: t) + 1) (min (levFull (a :: s) t + 1) (levFull s t + costc a b))
termination_by s t => s.length + t.length
decreasing_by all_goals simp_arith

/-- One single-character edit: insert, delete or substitute one character
at some position. -/
inductive EditStep : List Char → List Char → Prop where
  | ins (u v : List Char) (c : Char) : EditStep (u ++ v) (u ++ c :: v)
  | del (u v : List Char) (c : Char) : EditStep (u ++ c :: v) (u ++ v)
  | sub (u v : List Char) (c d : Char) : EditStep (u ++ c :: v) (u ++ d :: v)

/-- `Transforms n s t`: `s` can be transformed into `t` by `n` single-character
edits. -/
inductive Transforms : ℕ → List Char → List Char → Prop where
  | refl (s : List Char) : Transforms 0 s s
  | step {s t u : List Char} {n : ℕ} :
      EditStep s t → Transforms n t u → Transforms (n + 1) s u

/-! ## EditDistanceEngine — src/core/levenshtein.ts -/

/-- The inner `for (let j = 1; j <= len2; j++)` loop of
`levenshteinDistance`: reads `currRow[j-1]`, `prevRow[j]`, `prevRow[j-1]`
(raising the source's error if any is `undefined`) and appends the new
cell to the row being built.  `fuel` counts the remaining iterations. -/
def levInner (a : Char) (s2 : List Char) (prevRow : List ℕ) :
    ℕ → ℕ → List ℕ → Except String (List ℕ)
  | 0, _, curr => .ok curr
  | fuel + 1, j, curr =>
    let cost : ℕ := if s2[j - 1]? = some a then 0 else 1
    match curr[j - 1]?, prevRow[j]?, prevRow[j - 1]? with
    | some cj1, some pj, some pj1 =>
      levInner a s2 prevRow fuel (j + 1) (curr ++ [min (cj1 + 1) (min (pj + 1) (pj1 + cost))])
    | _, _, _ => .error "Array index out of bounds"

/-- The outer `for (let i = 1; i <= len1; i++)` loop: walks the characters
of the (longer) first string, threading the previous row; `currRow[0] = i`
is the `[i]` seed of the new row. -/
def levOuter (s2 : List Char) : List Char → ℕ → List ℕ → Except String (List ℕ)
  | [], _, prevRow => .ok prevRow
  | a :: rest, i, prevRow =>
    match levInner a s2 prevRow s2.length 1 [i] with
    | .ok curr => levOuter s2 rest (i + 1) curr
    | .error e => .error e

/-- `levenshteinDistance(s1, s2)`: early exits for empty and identical
inputs, the swap so the shorter string is the inner dimension, then the
two-row DP; the final read `prevRow[len2]` keeps its `undefined` guard. -/
def levenshteinDistance (s1 s2 : List Char) : Except String ℕ :=
  if s1.length = 0 then .ok s2.length
  else if s2.length = 0 then .ok s1.length
  else if s1 = s2 then .ok 0
  else if s1.length < s2.length then levenshteinDistance s2 s1
  else
    match levOuter s2 s1 1 (List.range (s2.length + 1)) with
    | .ok prevRow =>
      match prevRow[s2.length]? with
      | some r => .ok r
      | none => .error "Array index out of bounds"
    | .error e => .error e
termination_by (if s1.length < s2.length then 1 else 0)
decreasing_by simp_all; omega

/-- `levenshteinRatio(s1, s2)`: `100` on identical strings, else the
normalised `((maxLen - distance) / maxLen) * 100` with the source's
short-circuits. -/
def levenshteinRatio (s1 s2 : List Char) : Except String ℚ :=
  if s1 = s2 then .ok 100
  else
    match levenshteinDistance s1 s2 with
    | .error e => .error e
    | .ok distance =>
      let maxLen : ℕ := max s1.length s2.length
      if maxLen = 0 then .ok 100
      else if distance = 0 then .ok 100
      else if maxLen ≤ distance then .ok 0
      else .ok (((maxLen : ℚ) - (distance : ℚ)) / (maxLen : ℚ) * 100)

/-- The pure value `levenshteinRatio` computes (the DP never throws, see
`levenshteinDistance_ok`). -/
def ratioQ (s1 s2 : List Char) : ℚ :=
  if s1 = s2 then 100
  else
    let distance := levFull s1 s2
    let maxLen : ℕ := max s1.length s2.length
    if maxLen = 0 then 100
    else if distance = 0 then 100
    else if maxLen ≤ distance then 0
    else ((maxLen : ℚ) - (distance : ℚ)) / (maxLen : ℚ) * 100

/-! ## partialRatio — src/core/partialRatio.ts -/

/-- The sliding-window loop of `partialRatio`: at offset `i` compare the
shorter string against `longer.substring(i, i + windowSize)`, keep the
running maximum, and break the instant it reaches 100.  `fuel` counts the
remaining offsets (the source iterates `i = 0 .. maxPos`). -/
def partialLoop (shorter longer : List Char) (windowSize : ℕ) :
    ℕ → ℕ → ℚ → Except String ℚ
  | 0, _, best => .ok best
  | fuel + 1, i, best =>
    match levenshteinRatio shorter ((longer.drop i).take windowSize) with
    | .error e => .error e
    | .ok r =>
      let best' := max best r
      if best' = 100 then .ok best'
      else partialLoop shorter longer windowSize fuel (i + 1) best'

/-- `partialRatio(s1, s2)`: order the strings by length, return 0 on an
empty side, 100 when the longer contains (or starts or ends with) the
shorter, else the best window ratio. -/
def partialRatio (s1 s2 : List Char) : Except String ℚ :=
  let shorter := if s1.length ≤ s2.length then s1 else s2
  let longer := if s1.length > s2.length then s1 else s2
  if shorter.length = 0 then .ok 0
  else if longer.length = 0 then .ok 0
  else if shorter <:+: longer then .ok 100
  else if shorter <+: longer ∨ shorter <:+ longer then .ok 100
  else partialLoop shorter longer shorter.length (longer.length - shorter.length + 1) 0 0

/-- The maximum over every window offset of the ratio of the shorter
string against the same-length window of the longer — the spec's
"maximum over every offset i in [0, |longer| − |shorter|]". -/
def windowMax (shorter longer : List Char) : ℚ :=
  (((List.range (longer.length - shorter.length + 1)).map
    (fun i => ratioQ shorter ((longer.drop i).take shorter.length))).foldr max 0)

/-- The pure value `partialRatio` computes. -/
def partialRatioQ (s1 s2 : List Char) : ℚ :=
  let shorter := if s1.length ≤ s2.length then s1 else s2
  let longer := if s1.length > s2.length then s1 else s2
  if shorter.length = 0 then 0
  else if longer.length = 0 then 0
  else if shorter <:+: longer then 100
  else if shorter <+: longer ∨ shorter <:+ longer then 100
  else windowMax shorter longer

/-! ## tokenSortRatio — src/core/tokenSortRatio.ts -/

/-- `tokenSortRatio(s1, s2)`: tokenize both sides, handle empty token
lists, compare the space-joined sorted token renderings (equal renderings
short-circuit to 100). -/
def tokenSortRatio (s1 s2 : List Char) : Except String ℚ :=
  let tokens1 := tokenize s1
  let tokens2 := tokenize s2
  if tokens1.length = 0 ∧ tokens2.length = 0 then .ok 100
  else if tokens1.length = 0 ∨ tokens2.length = 0 then .ok 0
  else
    let sorted1 := sortTokens tokens1
    let sorted2 := sortTokens tokens2
    if sorted1 = sorted2 then .ok 100
    else levenshteinRatio sorted1 sorted2

/-- The pure value `tokenSortRatio` computes. -/
def tokenSortRatioQ (s1 s2 : List Char) : ℚ :=
  let tokens1 := tokenize s1
  let tokens2 := tokenize s2
  if tokens1.length = 0 ∧ tokens2.length = 0 then 100
  else if tokens1.length = 0 ∨ tokens2.length = 0 then 0
  else
    let sorted1 := sortTokens tokens1
    let sorted2 := sortTokens tokens2
    if sorted1 = sorted2 then 100
    else ratioQ sorted1 sorted2

/-! ## tokenSetRatio — src/core/tokenSetRatio.ts -/

/-- `new Set(tokens)` keeps each distinct token once; only membership and
deduplication are observable downstream (every use is sorted), so the
JS Set is modelled by `List.dedup`. -/
def tokenSet (tokens : List (List Char)) : List (List Char) :=
  tokens.dedup

/-- `tokenSetRatio(s1, s2)`: intersection and the two set differences of
the token sets, then the maximum of the three ratios between the sorted
intersection string and the two sorted combined strings. -/
def tokenSetRatio (s1 s2 : List Char) : Except String ℚ :=
  let tokens1 := tokenize s1
  let tokens2 := tokenize s2
  if tokens1.length = 0 ∧ tokens2.length = 0 then .ok 100
  else if tokens1.length = 0 ∨ tokens2.length = 0 then .ok 0
  else
    let set1 := tokenSet tokens1
    let set2 := tokenSet tokens2
    let intersectionArr := set1.filter (fun t => decide (t ∈ set2))
    let only1Arr := set1.filter (fun t => decide (t ∉ set2))
    let only2Arr := set2.filter (fun t => decide (t ∉ set1))
    if intersectionArr.length = 0 then .ok 0
    else
      let intersectionStr := sortTokens intersectionArr
      let combined1 := sortTokens (intersectionArr ++ only1Arr)
      let combined2 := sortTokens (intersectionArr ++ only2Arr)
      match
        (if 0 < intersectionStr.length then levenshteinRatio intersectionStr combined1
         else .ok 0),
        (if 0 < intersectionStr.length then levenshteinRatio intersectionStr combined2
         else .ok 0),
        levenshteinRatio combined1 combined2 with
      | .ok ratio1, .ok ratio2, .ok ratio3 => .ok (max ratio1 (max ratio2 ratio3))
      | .error e, _, _ => .error e
      | _, .error e, _ => .error e
      | _, _, .error e => .error e

/-- The pure value `tokenSetRatio` computes. -/
def tokenSetRatioQ (s1 s2 : List Char) : ℚ :=
  let tokens1 := tokenize s1
  let tokens2 := tokenize s2
  if tokens1.length = 0 ∧ tokens2.length = 0 then 100
  else if tokens1.length = 0 ∨ tokens2.length = 0 then 0
  else
    let set1 := tokenSet tokens1
    let set2 := tokenSet tokens2
    let intersectionArr := set1.filter (fun t => decide (t ∈ set2))
    let only1Arr := set1.filter (fun t => decide (t ∉ set2))
    let only2Arr := set2.filter (fun t => decide (t ∉ set1))
    if intersectionArr.length = 0 then 0
    else
      let intersectionStr := sortTokens intersectionArr
      let combined1 := sortTokens (intersectionArr ++ only1Arr)
      let combined2 := sortTokens (intersectionArr ++ only2Arr)
      let ratio1 := if 0 < intersectionStr.length then ratioQ intersectionStr combined1 else 0
      let ratio2 := if 0 < intersectionStr.length then ratioQ intersectionStr combined2 else 0
      let ratio3 := ratioQ combined1 combined2
      max ratio1 (max ratio2 ratio3)

/-! ## weightedRatio — src/core/weightedRatio.ts -/

/-- The length ratio `min(len1, len2) / max(len1, len2)` as the source
computes it (`len1 > len2 ? len2 / len1 : len1 / len2`). -/
def lenRatioQ (s1 s2 : List Char) : ℚ :=
  if s1.length > s2.length then (s2.length : ℚ) / (s1.length : ℚ)
  else (s1.length : ℚ) / (s2.length : ℚ)

/-- `weightedRatio(s1, s2)`: 100 on identical strings, else one of three
strategies by `lenRatio`, each with the source's 100-short-circuits. -/
def weightedRatio (s1 s2 : List Char) : Except String ℚ :=
  let lenRatio := lenRatioQ s1 s2
  if s1 = s2 then .ok 100
  else if lenRatio > 0.8 then
    match levenshteinRatio s1 s2 with
    | .error e => .error e
    | .ok simpleRatio =>
      if simpleRatio = 100 then .ok 100
      else
        match tokenSortRatio s1 s2 with
        | .error e => .error e
        | .ok tokenSort =>
          if tokenSort = 100 then .ok 100
          else
            match tokenSetRatio s1 s2 with
            | .error e => .error e
            | .ok tokenSetR => .ok (max simpleRatio (max tokenSort tokenSetR))
  else if lenRatio < 0.6 then
    match partialRatio s1 s2 with
    | .error e => .error e
    | .ok partialR =>
      if partialR = 100 then .ok 100
      else
        match tokenSortRatio s1 s2, tokenSetRatio s1 s2 with
        | .ok tokenSort, .ok tokenSetR =>
          .ok (max partialR (max (tokenSort * 0.95) (tokenSetR * 0.95)))
        | .error e, _ => .error e
        | _, .error e => .error e
  else
    match levenshteinRatio s1 s2 with
    | .error e => .error e
    | .ok simpleRatio =>
      if simpleRatio = 100 then .ok 100
      else
        match partialRatio s1 s2 with
        | .error e => .error e
        | .ok partialR =>
          if partialR = 100 then .ok 100
          else
            match tokenSortRatio s1 s2, tokenSetRatio s1 s2 with
            | .ok tokenSort, .ok tokenSetR =>
              .ok (max simpleRatio (max partialR (max tokenSort tokenSetR)))
            | .error e, _ => .error e
            | _, .error e => .error e

/-- The pure value `weightedRatio` computes. -/
def weightedRatioQ (s1 s2 : List Char) : ℚ :=
  let lenRatio := lenRatioQ s1 s2
  if s1 = s2 then 100
  else if lenRatio > 0.8 then
    let simpleRatio := ratioQ s1 s2
    if simpleRatio = 100 then 100
    else
      let tokenSort := tokenSortRatioQ s1 s2
      if tokenSort = 100 then 100
      else max simpleRatio (max tokenSort (tokenSetRatioQ s1 s2))
  else if lenRatio < 0.6 then
    let partialR := partialRatioQ s1 s2
    if partialR = 100 then 100
    else max partialR (max (tokenSortRatioQ s1 s2 * 0.95) (tokenSetRatioQ s1 s2 * 0.95))
  else
    let simpleRatio := ratioQ s1 s2
    if simpleRatio = 100 then 100
    else
      let partialR := partialRatioQ s1 s2
      if partialR = 100 then 100
      else max simpleRatio (max partialR (max (tokenSortRatioQ s1 s2) (tokenSetRatioQ s1 s2)))

/-! ## Selection engines — src/types.ts (MinHeap, extract) -/

/-- `ExtractResult { choice, score }` of src/types.ts. -/
structure ExtractResult where
  choice : List Char
  score : ℚ
deriving DecidableEq

/-- `ExtractOneResult { choice, score }` of src/types.ts. -/
structure ExtractOneResult where
  choice : List Char
  score : ℚ
deriving DecidableEq

/-- A JS array of candidate strings: its `length` and index access
(`none` is `undefined`), dense because callers pass arrays without
holes. -/
structure JSArr where
  size : ℕ
  get? : ℕ → Option (List Char)
  dense : ∀ i, (get? i).isSome ↔ i < size

/-- Build a `JSArr` from a list of candidates. -/
def JSArr.ofList (l : List (List Char)) : JSArr where
  size := l.length
  get? := fun i => l[i]?
  dense := by
    intro i
    show (l[i]?).isSome ↔ i < l.length
    constructor
    · intro h
      by_contra hlt
      rw [List.getElem?_eq_none (by omega)] at h
      simp at h
    · intro h
      rw [List.getElem?_eq_getElem h]
      simp

/-- A caller-supplied scorer: two strings to a number, possibly throwing
an exception of type `ε`. -/
def Scorer (ε : Type) : Type :=
  List Char → List Char → Except ε ℚ

/-- The sign of `a.localeCompare(b)`, modelled by the lexicographic
order. -/
def strCmp (a b : List Char) : ℚ :=
  if a < b then -1 else if b < a then 1 else 0

/-- The comparator of `MinHeap.getResults` and of the small-array path of
`extract`: descending score, ties (difference below 0.001) broken by
ascending candidate text. -/
def resultCmp (x y : ExtractResult) : ℚ :=
  let diff := y.score - x.score
  if |diff| < 0.001 then strCmp x.choice y.choice else diff

/-- `x` sorts no later than `y` under `resultCmp`. -/
def resultLe (x y : ExtractResult) : Prop :=
  resultCmp x y ≤ 0

instance : DecidableRel resultLe := fun x y => by
  unfold resultLe; infer_instance

/-- `[...heap].sort(cmp)`: the stable sort by the comparator. -/
def sortResults (l : List ExtractResult) : List ExtractResult :=
  List.insertionSort resultLe l

/-- `item?.score ?? 0`: the score of an optional result, 0 when absent. -/
def optScore (o : Option ExtractResult) : ℚ :=
  match o with
  | some r => r.score
  | none => 0

/-- Writing `heap[0] = result` in JS: replaces the head, or appends to an
empty array. -/
def jsSetHead (heap : List ExtractResult) (r : ExtractResult) : List ExtractResult :=
  match heap with
  | [] => [r]
  | _ :: t => r :: t

/-- `MinHeap.bubbleUp`: swap with the parent while the parent's score is
larger (`score` is always present, so the source's `?? Infinity` and
`?? 0` fallbacks never fire). -/
def bubbleUp : List ExtractResult → ℕ → List ExtractResult
  | heap, 0 => heap
  | heap, index + 1 =>
    let parent := (index + 1 - 1) / 2
    match heap[parent]?, heap[index + 1]? with
    | some parentItem, some currentItem =>
      if parentItem.score ≤ currentItem.score then heap
      else bubbleUp ((heap.set (index + 1) parentItem).set parent currentItem) parent
    | _, _ => heap
termination_by _ index => index
decreasing_by omega

/-- `MinHeap.bubbleDown`: swap with the smaller child while one is
smaller; `leftItem !== undefined && leftItem.score < currentScore` (and
the corresponding right-child test) are the `Option.any` conditions. -/
def bubbleDown (heap : List ExtractResult) (index : ℕ) : List ExtractResult :=
  match heap[index]? with
  | none => heap
  | some currentItem =>
    let left := 2 * index + 1
    let right := 2 * index + 2
    let smallest1 :=
      if (heap[left]?).any (fun leftItem => leftItem.score < currentItem.score) then left
      else index
    let smallest :=
      if (heap[right]?).any (fun rightItem =>
          (heap[smallest1]?).any (fun smallestItem => rightItem.score < smallestItem.score)) then
        right
      else smallest1
    if hni : smallest = index then heap
    else
      match h1 : heap[smallest]?, heap[index]? with
      | some smallestItemForSwap, some currentItemForSwap =>
        bubbleDown ((heap.set index smallestItemForSwap).set smallest currentItemForSwap) smallest
      | _, _ => heap
termination_by heap.length - index
decreasing_by
  have hlen : smallest < heap.length := (List.getElem?_eq_some_iff.mp h1).1
  have hx : index ≤ 2 * index + 1 := by
    have := Nat.le_mul_of_pos_left index (show 0 < 2 by norm_num)
    exact Nat.le_succ_of_le this
  have hy : index ≤ 2 * index + 2 := Nat.le_succ_of_le hx
  have hge1 : index ≤ smallest1 := by
    simp only [smallest1, left]
    split
    · exact hx
    · exact Nat.le_refl index
  have hge : index ≤ smallest := by
    simp only [smallest, right]
    split
    · exact hy
    · exact hge1
  simp only [List.length_set]
  show heap.length - smallest < heap.length - index
  omega

/-- `MinHeap.push` with capacity `size`: append-and-bubble-up while below
capacity, else replace the root when the new score beats it. -/
def heapPush (size : ℕ) (heap : List ExtractResult) (result : ExtractResult) :
    List ExtractResult :=
  if heap.length < size then bubbleUp (heap ++ [result]) ((heap ++ [result]).length - 1)
  else if result.score > optScore heap[0]? then bubbleDown (jsSetHead heap result) 0
  else heap

/-- `MinHeap.getResults`: copy and sort by the comparator. -/
def getResults (heap : List ExtractResult) : List ExtractResult :=
  sortResults heap

/-- The scoring loop of the small-array path of `extract`: score every
defined candidate in order.  `fuel` counts the remaining indices. -/
def scoreLoopSmall {ε : Type} (q : List Char) (arr : JSArr) (scorer : Scorer ε) :
    ℕ → ℕ → List ExtractResult → Except ε (List ExtractResult)
  | 0, _, results => .ok results
  | fuel + 1, i, results =>
    match arr.get? i with
    | none => scoreLoopSmall q arr scorer fuel (i + 1) results
    | some choice =>
      match scorer q choice with
      | .error e => .error e
      | .ok s => scoreLoopSmall q arr scorer fuel (i + 1) (results ++ [⟨choice, s⟩])

/-- The medium-array loop of `extract`: feed a capacity-`limit` min-heap,
counting perfect (score 100) matches, and return early once `limit`
perfect matches are held and every held item is perfect. -/
def mediumLoop {ε : Type} (q : List Char) (arr : JSArr) (scorer : Scorer ε) (limit : ℕ) :
    ℕ → ℕ → ℕ → List ExtractResult → Except ε (List ExtractResult)
  | 0, _, _, heap => .ok ((getResults heap).take limit)
  | fuel + 1, i, perfectMatches, heap =>
    match arr.get? i with
    | none => mediumLoop q arr scorer limit fuel (i + 1) perfectMatches heap
    | some choice =>
      match scorer q choice with
      | .error e => .error e
      | .ok score =>
        if score = 100 then
          let pm := perfectMatches + 1
          let heap' := heapPush limit heap ⟨choice, score⟩
          if pm ≥ limit then
            let heapResults := getResults heap'
            if heapResults.all (fun r => decide (r.score = 100)) then .ok (heapResults.take limit)
            else mediumLoop q arr scorer limit fuel (i + 1) pm heap'
          else mediumLoop q arr scorer limit fuel (i + 1) pm heap'
        else mediumLoop q arr scorer limit fuel (i + 1) perfectMatches
          (heapPush limit heap ⟨choice, score⟩)

/-- The inner chunk loop of `extractChunked` over indices
`[start, end)`: like `mediumLoop` but its early perfect-match return also
checks `heapResults.length >= limit`, and a normal exit hands back the
perfect-match count and the heap (`Sum.inr`). -/
def chunkInner {ε : Type} (q : List Char) (arr : JSArr) (scorer : Scorer ε) (limit : ℕ) :
    ℕ → ℕ → ℕ → List ExtractResult →
    Except ε (Sum (List ExtractResult) (ℕ × List ExtractResult))
  | 0, _, pm, heap => .ok (.inr (pm, heap))
  | fuel + 1, i, pm, heap =>
    match arr.get? i with
    | none => chunkInner q arr scorer limit fuel (i + 1) pm heap
    | some choice =>
      match scorer q choice with
      | .error e => .error e
      | .ok score =>
        if score = 100 then
          let pm' := pm + 1
          let heap' := heapPush limit heap ⟨choice, score⟩
          if pm' ≥ limit then
            let heapResults := getResults heap'
            if limit ≤ heapResults.length ∧ heapResults.all (fun r => decide (r.score = 100)) then
              .ok (.inl (heapResults.take limit))
            else chunkInner q arr scorer limit fuel (i + 1) pm' heap'
          else chunkInner q arr scorer limit fuel (i + 1) pm' heap'
        else chunkInner q arr scorer limit fuel (i + 1) pm (heapPush limit heap ⟨choice, score⟩)

/-- One confirmation sample chunk of `extractChunked`'s early
termination: push every defined candidate of the range, no early exits. -/
def samplePush {ε : Type} (q : List Char) (arr : JSArr) (scorer : Scorer ε) (limit : ℕ) :
    ℕ → ℕ → List ExtractResult → Except ε (List ExtractResult)
  | 0, _, heap => .ok heap
  | fuel + 1, i, heap =>
    match arr.get? i with
    | none => samplePush q arr scorer limit fuel (i + 1) heap
    | some choice =>
      match scorer q choice with
      | .error e => .error e
      | .ok score => samplePush q arr scorer limit fuel (i + 1) (heapPush limit heap ⟨choice, score⟩)

/-- The `for (let c = 0; c < sampleChunks; c++)` confirmation loop:
sample chunk `c` covers `[processed + c·chunkSize, min(… + chunkSize, len))`. -/
def sampleChunksLoop {ε : Type} (q : List Char) (arr : JSArr) (scorer : Scorer ε)
    (limit chunkSize processed : ℕ) :
    ℕ → ℕ → List ExtractResult → Except ε (List ExtractResult)
  | 0, _, heap => .ok heap
  | count + 1, c, heap =>
    let sampleStart := processed + c * chunkSize
    let sampleEnd := min (sampleStart + chunkSize) arr.size
    match samplePush q arr scorer limit (sampleEnd - sampleStart) sampleStart heap with
    | .error e => .error e
    | .ok heap' => sampleChunksLoop q arr scorer limit chunkSize processed count (c + 1) heap'

/-- The chunked-processing loop of `extractChunked`: chunks of
`chunkSize`, with the aggressive early termination once 20% of the
candidates are processed and the current `limit`-th best score exceeds
93.  `fuel` bounds the number of chunks (the call site passes `len`,
ample since `chunkSize ≥ 1`). -/
def chunkOuter {ε : Type} (q : List Char) (arr : JSArr) (scorer : Scorer ε)
    (limit chunkSize : ℕ) :
    ℕ → ℕ → ℕ → ℕ → List ExtractResult → Except ε (List ExtractResult)
  | 0, _, _, _, heap => .ok ((getResults heap).take limit)
  | fuel + 1, start, processed, pm, heap =>
    let len := arr.size
    if start < len then
      let endIdx := min (start + chunkSize) len
      match chunkInner q arr scorer limit (endIdx - start) start pm heap with
      | .error e => .error e
      | .ok (.inl out) => .ok out
      | .ok (.inr (pm', heap')) =>
        let processed' := processed + (endIdx - start)
        if (processed' : ℚ) > (len : ℚ) * 0.2 then
          let currentResults := getResults heap'
          if limit ≤ currentResults.length then
            let minScore : ℚ := optScore currentResults[limit - 1]?
            if minScore > (93 : ℚ) then
              let sampleChunks := min 2 ((len - processed') / chunkSize)
              match sampleChunksLoop q arr scorer limit chunkSize processed' sampleChunks 0 heap' with
              | .error e => .error e
              | .ok heap'' => .ok ((getResults heap'').take limit)
            else chunkOuter q arr scorer limit chunkSize fuel (start + chunkSize) processed' pm' heap'
          else chunkOuter q arr scorer limit chunkSize fuel (start + chunkSize) processed' pm' heap'
        else chunkOuter q arr scorer limit chunkSize fuel (start + chunkSize) processed' pm' heap'
    else .ok ((getResults heap).take limit)

/-- `extractChunked(query, choices, scorer, limit)`: dynamic chunk size by
array length, then the chunked loop. -/
def extractChunked {ε : Type} (q : List Char) (choices : JSArr) (scorer : Scorer ε)
    (limit : ℕ) : Except ε (List ExtractResult) :=
  let len := choices.size
  let chunkSize :=
    if len > 200000 then 10000 else if len > 100000 then 7500 else if len > 50000 then 5000
    else 3000
  chunkOuter q choices scorer limit chunkSize len 0 0 0 []

/-- `extract(query, choices, scorer, limit)`: empty array or
non-positive limit give an empty result; the limit is clamped to the
array length; then the small (full sort), large (chunked) or medium
(heap) strategy by size.  The limit is an integer-valued JS number,
modelled as `ℤ` (after the guards it is positive and `toNat` is exact). -/
def extract {ε : Type} (query : List Char) (choices : JSArr) (scorer : Scorer ε)
    (limit : ℤ) : Except ε (List ExtractResult) :=
  if choices.size = 0 then .ok []
  else if limit ≤ 0 then .ok []
  else
    let limit : ℤ := if limit > (choices.size : ℤ) then (choices.size : ℤ) else limit
    let len := choices.size
    let lim : ℕ := limit.toNat
    if (len : ℤ) ≤ limit * 2 then
      match scoreLoopSmall query choices scorer len 0 [] with
      | .error e => .error e
      | .ok results => .ok ((sortResults results).take lim)
    else if len > 8000 then extractChunked query choices scorer lim
    else mediumLoop query choices scorer lim len 0 0 []

/-! ## BestMatchSelector — the extractOne module

`Math.random()` appears only in the verification pass; the embedding
takes the stream `rand : ℕ → ℕ` of the already-floored random indices
(`Math.floor(Math.random() * len)`) as a parameter. -/

/-- The running best of `extractOne`: `bestChoice` and `bestScore`. -/
abbrev Best := List Char × ℚ

/-- The `for (let i = 1; i < len; i++)` linear scan of `extractOne`
(small tier): keep the running best, break immediately on a perfect
score. -/
def scanLoop {ε : Type} (q : List Char) (arr : JSArr) (scorer : Scorer ε) :
    ℕ → ℕ → Best → Except ε Best
  | 0, _, best => .ok best
  | fuel + 1, i, best =>
    match arr.get? i with
    | none => scanLoop q arr scorer fuel (i + 1) best
    | some choice =>
      match scorer q choice with
      | .error e => .error e
      | .ok score =>
        if score > best.2 then
          if score = 100 then .ok (choice, score)
          else scanLoop q arr scorer fuel (i + 1) (choice, score)
        else scanLoop q arr scorer fuel (i + 1) best

/-- The evenly-distributed additional-samples loop of
`extractOneChunked`: sample index `⌊(len−1)(s+1)/(total+1)⌋`, update the
best, return `Sum.inl` the instant a 100 is found. -/
def sampleEvenLoop {ε : Type} (q : List Char) (arr : JSArr) (scorer : Scorer ε) (total : ℕ) :
    ℕ → ℕ → Best → Except ε (Sum Best Best)
  | 0, _, best => .ok (.inr best)
  | fuel + 1, s, best =>
    let idx := (arr.size - 1) * (s + 1) / (total + 1)
    match arr.get? idx with
    | none => sampleEvenLoop q arr scorer total fuel (s + 1) best
    | some choice =>
      match scorer q choice with
      | .error e => .error e
      | .ok score =>
        if score > best.2 then
          if score = 100 then .ok (.inl (choice, score))
          else sampleEvenLoop q arr scorer total fuel (s + 1) (choice, score)
        else sampleEvenLoop q arr scorer total fuel (s + 1) best

/-- The `for (const idx of sampleIndices)` strategic-positions loop, same
update/early-return discipline. -/
def sampleListLoop {ε : Type} (q : List Char) (arr : JSArr) (scorer : Scorer ε) :
    List ℕ → Best → Except ε (Sum Best Best)
  | [], best => .ok (.inr best)
  | idx :: rest, best =>
    match arr.get? idx with
    | none => sampleListLoop q arr scorer rest best
    | some choice =>
      match scorer q choice with
      | .error e => .error e
      | .ok score =>
        if score > best.2 then
          if score = 100 then .ok (.inl (choice, score))
          else sampleListLoop q arr scorer rest (choice, score)
        else sampleListLoop q arr scorer rest best

/-- The verification pass over 100 random positions: `rand v` is the
`v`-th `Math.floor(Math.random() * len)`; tracks whether a better match
was found, returns `Sum.inl` on a perfect score. -/
def verifyLoop {ε : Type} (q : List Char) (arr : JSArr) (scorer : Scorer ε) (rand : ℕ → ℕ) :
    ℕ → ℕ → Best → Bool → Except ε (Sum Best (Best × Bool))
  | 0, _, best, foundBetter => .ok (.inr (best, foundBetter))
  | fuel + 1, v, best, foundBetter =>
    let randomIdx := rand v
    match arr.get? randomIdx with
    | none => verifyLoop q arr scorer rand fuel (v + 1) best foundBetter
    | some choice =>
      match scorer q choice with
      | .error e => .error e
      | .ok score =>
        if score > best.2 then
          if score = 100 then .ok (.inl (choice, score))
          else verifyLoop q arr scorer rand fuel (v + 1) (choice, score) true
        else verifyLoop q arr scorer rand fuel (v + 1) best foundBetter

/-- One chunk of `extractOneChunked`'s sequential scan over
`[start, end)`: update the best, `Sum.inl` on a perfect score. -/
def oneInnerScan {ε : Type} (q : List Char) (arr : JSArr) (scorer : Scorer ε) :
    ℕ → ℕ → Best → Except ε (Sum Best Best)
  | 0, _, best => .ok (.inr best)
  | fuel + 1, i, best =>
    match arr.get? i with
    | none => oneInnerScan q arr scorer fuel (i + 1) best
    | some choice =>
      match scorer q choice with
      | .error e => .error e
      | .ok score =>
        if score > best.2 then
          if score = 100 then .ok (.inl (choice, score))
          else oneInnerScan q arr scorer fuel (i + 1) (choice, score)
        else oneInnerScan q arr scorer fuel (i + 1) best

/-- The final strategic sampling of the early-termination branch: up to
`sampleCount` positions `processed + s·step`, stopping at the array end;
both the perfect-score return and the loop's end yield the final best. -/
def oneStrategic {ε : Type} (q : List Char) (arr : JSArr) (scorer : Scorer ε)
    (base step : ℕ) : ℕ → ℕ → Best → Except ε Best
  | 0, _, best => .ok best
  | fuel + 1, s, best =>
    let idx := base + s * step
    if idx ≥ arr.size then .ok best
    else
      match arr.get? idx with
      | none => oneStrategic q arr scorer base step fuel (s + 1) best
      | some choice =>
        match scorer q choice with
        | .error e => .error e
        | .ok score =>
          if score > best.2 then
            if score = 100 then .ok (choice, score)
            else oneStrategic q arr scorer base step fuel (s + 1) (choice, score)
          else oneStrategic q arr scorer base step fuel (s + 1) best

/-- The chunked scan of `extractOneChunked` from index 1, with the
early-termination branch: once `earlyExitThreshold` candidates are
processed and the best exceeds 97, strategically sample up to 200 of the
remaining positions and return.  `fuel` bounds the number of chunks. -/
def oneChunkOuter {ε : Type} (q : List Char) (arr : JSArr) (scorer : Scorer ε)
    (chunkSize : ℕ) (earlyExitThreshold : ℚ) :
    ℕ → ℕ → ℕ → Best → Except ε Best
  | 0, _, _, best => .ok best
  | fuel + 1, start, processed, best =>
    let len := arr.size
    if start < len then
      let endIdx := min (start + chunkSize) len
      match oneInnerScan q arr scorer (endIdx - start) start best with
      | .error e => .error e
      | .ok (.inl done) => .ok done
      | .ok (.inr best') =>
        let processed' := processed + (endIdx - start)
        if (processed' : ℚ) > earlyExitThreshold then
          if best'.2 > (97 : ℚ) then
            let sampleCount := min 200 ((len - processed') / 50)
            let step := (len - processed') / sampleCount
            oneStrategic q arr scorer processed' step sampleCount 0 best'
          else oneChunkOuter q arr scorer chunkSize earlyExitThreshold fuel
            (start + chunkSize) processed' best'
        else oneChunkOuter q arr scorer chunkSize earlyExitThreshold fuel
          (start + chunkSize) processed' best'
    else .ok best

/-- The strategic positions `[0, ⌊len·0.1⌋, …, ⌊len·0.9⌋, len − 1]`
filtered to `0 < idx < len` (index 0 was already processed). -/
def sampleIndicesOf (len : ℕ) : List ℕ :=
  ([0, (⌊(len : ℚ) * 0.1⌋).toNat, (⌊(len : ℚ) * 0.2⌋).toNat, (⌊(len : ℚ) * 0.3⌋).toNat,
    (⌊(len : ℚ) * 0.5⌋).toNat, (⌊(len : ℚ) * 0.7⌋).toNat, (⌊(len : ℚ) * 0.9⌋).toNat,
    len - 1]).filter (fun idx => decide (0 < idx) && decide (idx < len))

/-- `extractOneChunked`: upfront even sampling and strategic positions,
the random verification pass when the sampled best exceeds 98 on an
array over 100000, then the chunked scan with early termination. -/
def extractOneChunked {ε : Type} (q : List Char) (choices : JSArr) (scorer : Scorer ε)
    (rand : ℕ → ℕ) (initialChoice : List Char) (initialScore : ℚ) : Except ε Best :=
  let len := choices.size
  let chunkSize := if len > 200000 then 20000 else if len > 100000 then 15000 else 10000
  let sampleIndices := sampleIndicesOf len
  let additionalSamples :=
    if len > 200000 then 50 else if len > 100000 then 30 else if len > 50000 then 20 else 15
  let phase1 : Except ε (Sum Best Best) :=
    if len > 20000 then
      match sampleEvenLoop q choices scorer additionalSamples additionalSamples 0
          (initialChoice, initialScore) with
      | .error e => .error e
      | .ok (.inl done) => .ok (.inl done)
      | .ok (.inr best1) =>
        match sampleListLoop q choices scorer sampleIndices best1 with
        | .error e => .error e
        | .ok (.inl done) => .ok (.inl done)
        | .ok (.inr best2) =>
          if best2.2 > (98 : ℚ) ∧ len > 100000 then
            match verifyLoop q choices scorer rand 100 0 best2 false with
            | .error e => .error e
            | .ok (.inl done) => .ok (.inl done)
            | .ok (.inr (best3, foundBetter)) =>
              if foundBetter = false then .ok (.inl best3) else .ok (.inr best3)
          else .ok (.inr best2)
    else .ok (.inr (initialChoice, initialScore))
  match phase1 with
  | .error e => .error e
  | .ok (.inl done) => .ok done
  | .ok (.inr best) =>
    let earlyExitThreshold : ℚ :=
      if len > 100000 then (len : ℚ) * 0.1 else (len : ℚ) * 0.15
    oneChunkOuter q choices scorer chunkSize earlyExitThreshold len 1 1 best

/-- `extractOne(query, choices, scorer)`: `null` on an empty array, an
immediate return when the first candidate scores 100, the chunked
strategy over 20000 candidates, else the linear scan from index 1. -/
def extractOne {ε : Type} (query : List Char) (choices : JSArr) (scorer : Scorer ε)
    (rand : ℕ → ℕ) : Except ε (Option ExtractOneResult) :=
  if choices.size = 0 then .ok none
  else
    match choices.get? 0 with
    | none => .ok none
    | some firstChoice =>
      match scorer query firstChoice with
      | .error e => .error e
      | .ok bestScore =>
        if bestScore = 100 then .ok (some ⟨firstChoice, bestScore⟩)
        else if choices.size > 20000 then
          match extractOneChunked query choices scorer rand firstChoice bestScore with
          | .error e => .error e
          | .ok best => .ok (some ⟨best.1, best.2⟩)
        else
          match scanLoop query choices scorer (choices.size - 1) 1 (firstChoice, bestScore) with
          | .error e => .error e
          | .ok best => .ok (some ⟨best.1, best.2⟩)

/-! ## Concrete inputs used to settle the selection-engine claims -/

/-- Two candidates whose scores differ by less than 0.001. -/
def c2Arr : JSArr := JSArr.ofList [['a'], ['b']]

/-- Scores `"b"` at 100 and everything else at 99.9995. -/
def c2Scorer : Scorer Unit :=
  fun _ c => if c = ['b'] then .ok 100 else .ok (199999 / 2000)

/-- The query of the extractOne nondeterminism counterexample. -/
def c6Query : List Char := ['q']

/-- 100001 candidates: index 3 is the query itself, every other index a
filler; function-backed so evaluation never builds the list. -/
def c6Arr : JSArr where
  size := 100001
  get? := fun i => if i < 100001 then (if i = 3 then some ['q'] else some ['x']) else none
  dense := by
    intro i
    show (if i < 100001 then (if i = 3 then some ['q'] else some ['x']) else none).isSome
      = true ↔ i < 100001
    by_cases h : i < 100001
    · rw [if_pos h]
      by_cases h3 : i = 3
      · rw [if_pos h3]
        simp [h]
      · rw [if_neg h3]
        simp [h]
    · rw [if_neg h]
      simp
      omega

/-- 100 on an exact match, 99 otherwise: a pure function of its
arguments. -/
def c6Scorer : Scorer Unit := fun q c => if c = q then .ok 100 else .ok 99

/-- A random stream that always lands on index 1 (misses the match). -/
def c6RandA : ℕ → ℕ := fun _ => 1

/-- A random stream whose first draw lands on index 3 (hits the match). -/
def c6RandB : ℕ → ℕ := fun v => if v = 0 then 3 else 1

/-- The query of the sampling-skips-exact-match counterexample. -/
def c1Query : List Char := ['q']

/-- 20001 candidates (just over the chunked threshold): index 10002 is
the query itself, every other index a filler. -/
def c1Arr : JSArr where
  size := 20001
  get? := fun i => if i < 20001 then (if i = 10002 then some ['q'] else some ['x']) else none
  dense := by
    intro i
    show (if i < 20001 then (if i = 10002 then some ['q'] else some ['x']) else none).isSome
      = true ↔ i < 20001
    by_cases h : i < 20001
    · rw [if_pos h]
      by_cases h3 : i = 10002
      · rw [if_pos h3]
        simp [h]
      · rw [if_neg h3]
        simp [h]
    · rw [if_neg h]
      simp
      omega

/-- 100 on an exact match, 98 otherwise. -/
def c1Scorer : Scorer Unit := fun q c => if c = q then .ok 100 else .ok 98

/-! ## Theory of `levFull` and edit scripts -/

theorem levFull_nil_left (t : List Char) : levFull [] t = t.length := by
  rw [levFull]

theorem levFull_nil_right (s : List Char) : levFull s [] = s.length := by
  cases s with
  | nil => rw [levFull]
  | cons a s => simp [levFull]

theorem levFull_cons_cons (a b : Char) (s t : List Char) :
    levFull (a :: s) (b :: t) =
      min (levFull s (b :: t) + 1) (min (levFull (a :: s) t + 1) (levFull s t + costc a b)) := by
  rw [levFull]

theorem costc_self (a : Char) : costc a a = 0 := by
  simp [costc]

theorem costc_le_one (a b : Char) : costc a b ≤ 1 := by
  unfold costc
  split <;> omega

theorem levFull_self (s : List Char) : levFull s s = 0 := by
  induction s with
  | nil => rw [levFull_nil_left]; rfl
  | cons a s ih =>
    rw [levFull_cons_cons, costc_self, ih]
    omega

theorem editStep_cons {s t : List Char} (a : Char) (h : EditStep s t) :
    EditStep (a :: s) (a :: t) := by
  cases h with
  | ins u v c => exact EditStep.ins (a :: u) v c
  | del u v c => exact EditStep.del (a :: u) v c
  | sub u v c d => exact EditStep.sub (a :: u) v c d

theorem transforms_cons {n : ℕ} {s t : List Char} (a : Char) (h : Transforms n s t) :
    Transforms n (a :: s) (a :: t) := by
  induction h with
  | refl s => exact Transforms.refl (a :: s)
  | step e _rest ih => exact Transforms.step (editStep_cons a e) ih

theorem transforms_trans {m n : ℕ} {s t u : List Char}
    (h1 : Transforms m s t) (h2 : Transforms n t u) : Transforms (m + n) s u := by
  induction h1 with
  | refl s => simpa using h2
  | step e _rest ih =>
    have := Transforms.step e (ih h2)
    simpa [Nat.add_right_comm] using this

theorem transforms_snoc {n : ℕ} {s t u : List Char}
    (h1 : Transforms n s t) (e : EditStep t u) : Transforms (n + 1) s u :=
  transforms_trans h1 (Transforms.step e (Transforms.refl u))

theorem editStep_symm {s t : List Char} (h : EditStep s t) : EditStep t s := by
  cases h with
  | ins u v c => exact EditStep.del u v c
  | del u v c => exact EditStep.ins u v c
  | sub u v c d => exact EditStep.sub u v d c

theorem transforms_symm {n : ℕ} {s t : List Char} (h : Transforms n s t) :
    Transforms n t s := by
  induction h with
  | refl s => exact Transforms.refl s
  | step e _rest ih => exact transforms_snoc ih (editStep_symm e)

theorem editStep_reverse {s t : List Char} (h : EditStep s t) :
    EditStep s.reverse t.reverse := by
  cases h with
  | ins u v c =>
    have := EditStep.ins v.reverse u.reverse c
    simpa [List.reverse_append] using this
  | del u v c =>
    have := EditStep.del v.reverse u.reverse c
    simpa [List.reverse_append] using this
  | sub u v c d =>
    have := EditStep.sub v.reverse u.reverse c d
    simpa [List.reverse_append] using this

theorem transforms_reverse {n : ℕ} {s t : List Char} (h : Transforms n s t) :
    Transforms n s.reverse t.reverse := by
  induction h with
  | refl s => exact Transforms.refl s.reverse
  | step e _rest ih => exact Transforms.step (editStep_reverse e) ih

theorem transforms_insert_all (t : List Char) : Transforms t.length [] t := by
  induction t with
  | nil => exact Transforms.refl []
  | cons b t ih =>
    have e : EditStep [] [b] := EditStep.ins [] [] b
    exact Transforms.step e (transforms_cons b ih)

theorem transforms_delete_all (s : List Char) : Transforms s.length s [] := by
  induction s with
  | nil => exact Transforms.refl []
  | cons a s ih =>
    have e : EditStep (a :: s) s := EditStep.del [] s a
    exact Transforms.step e ih

/-- Achievability: `levFull s t` edits suffice to transform `s` into `t`. -/
theorem transforms_levFull : ∀ s t : List Char, Transforms (levFull s t) s t := by
  intro s
  induction s with
  | nil =>
    intro t
    rw [levFull_nil_left]
    exact transforms_insert_all t
  | cons a s ihs =>
    intro t
    induction t with
    | nil =>
      rw [levFull_nil_right]
      exact transforms_delete_all (a :: s)
    | cons b t iht =>
      rw [levFull_cons_cons]
      rcases min_choice (levFull s (b :: t) + 1)
          (min (levFull (a :: s) t + 1) (levFull s t + costc a b)) with h1 | h1
      · rw [h1]
        exact Transforms.step (EditStep.del ([] : List Char) s a) (ihs (b :: t))
      · rw [h1]
        rcases min_choice (levFull (a :: s) t + 1) (levFull s t + costc a b) with h2 | h2
        · rw [h2]
          exact Transforms.step (EditStep.ins ([] : List Char) (a :: s) b)
            (transforms_cons b iht)
        · rw [h2]
          by_cases hab : a = b
          · subst hab
            rw [costc_self]
            exact transforms_cons a (ihs t)
          · have hc : costc a b = 1 := by simp [costc, hab]
            rw [hc]
            exact Transforms.step (EditStep.sub ([] : List Char) s a b)
              (transforms_cons b (ihs t))

/-- The one-step bounds on `levFull`, used for the lower bound. -/
theorem levFull_le_cons_right (x : List Char) (b : Char) (y : List Char) :
    levFull x (b :: y) ≤ levFull x y + 1 := by
  cases x with
  | nil => rw [levFull_nil_left, levFull_nil_left]; simp
  | cons a x =>
    rw [levFull_cons_cons]
    omega

theorem levFull_cons_left_le (c : Char) (v u : List Char) :
    levFull (c :: v) u ≤ levFull v u + 1 := by
  cases u with
  | nil =>
    rw [levFull_nil_right, levFull_nil_right]
    simp only [List.length_cons]
    omega
  | cons b u =>
    rw [levFull_cons_cons]
    omega

theorem levFull_le_cons_left (c : Char) (v : List Char) :
    ∀ u : List Char, levFull v u ≤ levFull (c :: v) u + 1 := by
  intro u
  induction u with
  | nil =>
    rw [levFull_nil_right, levFull_nil_right]
    simp only [List.length_cons]
    omega
  | cons b u ih =>
    have h1 := levFull_le_cons_right v b u
    have h2 := costc_le_one c b
    rw [levFull_cons_cons]
    have h3 : levFull v (b :: u) ≤ levFull v u + 1 := levFull_le_cons_right v b u
    omega

theorem levFull_le_cons_right' (x : List Char) (b : Char) :
    ∀ y : List Char, levFull x y ≤ levFull x (b :: y) + 1 := by
  induction x with
  | nil =>
    intro y
    rw [levFull_nil_left, levFull_nil_left]
    simp only [List.length_cons]
    omega
  | cons a x ih =>
    intro y
    have h1 := levFull_cons_left_le a x y
    have h2 := ih y
    have h3 := costc_le_one a b
    rw [levFull_cons_cons]
    omega

theorem levFull_sub_le (c d : Char) (v : List Char) :
    ∀ u : List Char, levFull (c :: v) u ≤ levFull (d :: v) u + 1 := by
  intro u
  induction u with
  | nil =>
    rw [levFull_nil_right, levFull_nil_right]
    simp only [List.length_cons]
    omega
  | cons b u ih =>
    have h1 := costc_le_one c b
    have h2 : (0 : ℕ) ≤ costc d b := Nat.zero_le _
    rw [levFull_cons_cons, levFull_cons_cons]
    omega

/-- Congruence under a common prefix: a pointwise bound between two
suffixes lifts to the same bound with any prefix prepended. -/
theorem levFull_append_le (k : ℕ) (v1 v2 : List Char)
    (H : ∀ u : List Char, levFull v1 u ≤ k + levFull v2 u) :
    ∀ (p : List Char) (u : List Char), levFull (p ++ v1) u ≤ k + levFull (p ++ v2) u := by
  intro p
  induction p with
  | nil => simpa using H
  | cons a p ihp =>
    intro u
    induction u with
    | nil =>
      rw [List.cons_append, List.cons_append, levFull_nil_right, levFull_nil_right]
      have := H ([] : List Char)
      rw [levFull_nil_right, levFull_nil_right] at this
      simp only [List.length_cons, List.length_append]
      omega
    | cons b u ihu =>
      rw [List.cons_append, List.cons_append] at ihu ⊢
      rw [levFull_cons_cons, levFull_cons_cons]
      have h1 := ihp (b :: u)
      have h2 := ihp u
      omega

/-- A single edit changes `levFull` against any third string by at most
one. -/
theorem editStep_levFull_le {s t : List Char} (e : EditStep s t) :
    ∀ u : List Char, levFull s u ≤ 1 + levFull t u := by
  cases e with
  | ins p v c =>
    intro u
    have := levFull_append_le 1 v (c :: v) (fun w => by
      have := levFull_le_cons_left c v w
      omega) p u
    omega
  | del p v c =>
    intro u
    have := levFull_append_le 1 (c :: v) v (fun w => by
      have := levFull_cons_left_le c v w
      omega) p u
    omega
  | sub p v c d =>
    intro u
    have := levFull_append_le 1 (c :: v) (d :: v) (fun w => by
      have := levFull_sub_le c d v w
      omega) p u
    omega

/-- Lower bound: no edit script is shorter than `levFull`. -/
theorem levFull_le_of_transforms {n : ℕ} {s t : List Char} (h : Transforms n s t) :
    levFull s t ≤ n := by
  induction h with
  | refl s => rw [levFull_self]
  | step e rest ih =>
    rename_i s' t' u' n'
    have := editStep_levFull_le e u'
    omega

/-- `levFull` is the least number of single-character edits. -/
theorem levFull_isLeast (s t : List Char) :
    IsLeast {n : ℕ | Transforms n s t} (levFull s t) :=
  ⟨transforms_levFull s t, fun _n hn => levFull_le_of_transforms hn⟩

theorem levFull_symm (s t : List Char) : levFull s t = levFull t s := by
  apply le_antisymm
  · exact levFull_le_of_transforms (transforms_symm (transforms_levFull t s))
  · exact levFull_le_of_transforms (transforms_symm (transforms_levFull s t))

theorem levFull_reverse (s t : List Char) :
    levFull s.reverse t.reverse = levFull s t := by
  apply le_antisymm
  · exact levFull_le_of_transforms (transforms_reverse (transforms_levFull s t))
  · have h := transforms_reverse (transforms_levFull s.reverse t.reverse)
    rw [List.reverse_reverse, List.reverse_reverse] at h
    exact levFull_le_of_transforms h

/-! ## The DP of levenshteinDistance computes levFull -/

/-- The row the DP holds after processing the reversed prefix `u` of the
first string: cell `j` is the distance of `u` against the reversed
`j`-prefix of `s2`. -/
def specRow (s2 u : List Char) : List ℕ :=
  (List.range (s2.length + 1)).map (fun j => levFull u ((s2.take j).reverse))

theorem specRow_length (s2 u : List Char) : (specRow s2 u).length = s2.length + 1 := by
  simp [specRow]

theorem specRow_get (s2 u : List Char) {j : ℕ} (hj : j ≤ s2.length) :
    (specRow s2 u)[j]? = some (levFull u ((s2.take j).reverse)) := by
  unfold specRow
  rw [List.getElem?_map, List.getElem?_range (by omega)]
  rfl

theorem take_reverse_succ (s2 : List Char) {j : ℕ} (hj : j < s2.length) :
    (s2.take (j + 1)).reverse = s2[j] :: (s2.take j).reverse := by
  rw [List.take_succ, List.getElem?_eq_getElem hj]
  simp

theorem levInner_spec (a : Char) (s2 u : List Char) :
    ∀ fuel j, 1 ≤ j → j + fuel = s2.length + 1 →
    levInner a s2 (specRow s2 u) fuel j ((specRow s2 (a :: u)).take j) =
      .ok (specRow s2 (a :: u)) := by
  intro fuel
  induction fuel with
  | zero =>
    intro j _hj1 hj2
    rw [levInner, List.take_of_length_le (by rw [specRow_length]; omega)]
  | succ fuel ih =>
    intro j hj1 hj2
    have hjlen : j ≤ s2.length := by omega
    have hjm : j - 1 < s2.length := by omega
    rw [levInner]
    have hc : ((specRow s2 (a :: u)).take j)[j - 1]? =
        some (levFull (a :: u) ((s2.take (j - 1)).reverse)) := by
      rw [List.getElem?_take, if_pos (by omega), specRow_get s2 (a :: u) (by omega)]
    have hp : (specRow s2 u)[j]? = some (levFull u ((s2.take j).reverse)) :=
      specRow_get s2 u hjlen
    have hp1 : (specRow s2 u)[j - 1]? = some (levFull u ((s2.take (j - 1)).reverse)) :=
      specRow_get s2 u (by omega)
    rw [hc, hp, hp1]
    dsimp only
    have hs2j : s2[j - 1]? = some s2[j - 1] := List.getElem?_eq_getElem hjm
    have hdec : (s2.take j).reverse = s2[j - 1] :: (s2.take (j - 1)).reverse := by
      have := take_reverse_succ s2 hjm
      have hj' : j - 1 + 1 = j := by omega
      rw [hj'] at this
      exact this
    have hcost : (if s2[j - 1]? = some a then 0 else 1) = costc a s2[j - 1] := by
      rw [hs2j]
      unfold costc
      by_cases h : a = s2[j - 1]
      · rw [if_pos (by rw [h]), if_pos h]
      · rw [if_neg (fun hx => h (Option.some.inj hx).symm), if_neg h]
    have hcell : min (levFull (a :: u) ((s2.take (j - 1)).reverse) + 1)
        (min (levFull u ((s2.take j).reverse) + 1)
          (levFull u ((s2.take (j - 1)).reverse) + (if s2[j - 1]? = some a then 0 else 1))) =
        levFull (a :: u) ((s2.take j).reverse) := by
      rw [hcost, hdec, levFull_cons_cons]
      rw [min_left_comm]
    rw [hcell]
    have happend : (specRow s2 (a :: u)).take j ++ [levFull (a :: u) ((s2.take j).reverse)] =
        (specRow s2 (a :: u)).take (j + 1) := by
      rw [List.take_succ]
      rw [specRow_get s2 (a :: u) hjlen]
      rfl
    rw [happend]
    exact ih (j + 1) (by omega) (by omega)

theorem levOuter_spec (s2 : List Char) :
    ∀ (rest u : List Char),
    levOuter s2 rest (u.length + 1) (specRow s2 u) = .ok (specRow s2 (rest.reverse ++ u)) := by
  intro rest
  induction rest with
  | nil =>
    intro u
    rw [levOuter]
    simp
  | cons a rest ih =>
    intro u
    rw [levOuter]
    have hseed : ([u.length + 1] : List ℕ) = (specRow s2 (a :: u)).take 1 := by
      have h0 : (specRow s2 (a :: u)).take 1 =
          [levFull (a :: u) ((s2.take 0).reverse)] := by
        rw [List.take_succ, List.take_zero]
        rw [specRow_get s2 (a :: u) (by omega)]
        rfl
      rw [h0]
      simp [levFull_nil_right]
    rw [hseed, levInner_spec a s2 u s2.length 1 (by omega) (by omega)]
    dsimp only
    have h2 := ih (a :: u)
    have h3 : (a :: u).length + 1 = u.length + 1 + 1 := by simp
    rw [h3] at h2
    rw [h2]
    have h4 : rest.reverse ++ (a :: u) = (a :: rest).reverse ++ u := by
      simp
    rw [h4]

theorem levenshteinDistance_core (s1 s2 : List Char) (h1 : ¬s1.length = 0)
    (h2 : ¬s2.length = 0) (h3 : ¬s1 = s2) (h4 : ¬s1.length < s2.length) :
    levenshteinDistance s1 s2 = .ok (levFull s1 s2) := by
  rw [levenshteinDistance]
  rw [if_neg h1, if_neg h2, if_neg h3, if_neg h4]
  have hinit : List.range (s2.length + 1) = specRow s2 [] := by
    unfold specRow
    have : (List.range (s2.length + 1)).map (fun j => levFull [] ((s2.take j).reverse)) =
        (List.range (s2.length + 1)).map (fun j => j) := by
      apply List.map_congr_left
      intro j hj
      rw [List.mem_range] at hj
      rw [levFull_nil_left]
      simp [List.length_take]
      omega
    rw [this]
    simp
  rw [hinit]
  have houter := levOuter_spec s2 s1 []
  simp only [List.length_nil, List.append_nil] at houter
  rw [houter]
  dsimp only
  rw [specRow_get s2 s1.reverse (by omega)]
  rw [List.take_of_length_le (by omega)]
  rw [levFull_reverse]

/-- The embedded `levenshteinDistance` always returns normally, with the
textbook edit distance as its value. -/
theorem levenshteinDistance_ok (s1 s2 : List Char) :
    levenshteinDistance s1 s2 = .ok (levFull s1 s2) := by
  by_cases h1 : s1.length = 0
  · rw [levenshteinDistance, if_pos h1]
    rw [List.length_eq_zero.mp h1, levFull_nil_left]
  · by_cases h2 : s2.length = 0
    · rw [levenshteinDistance, if_neg h1, if_pos h2]
      rw [List.length_eq_zero.mp h2, levFull_nil_right]
    · by_cases h3 : s1 = s2
      · rw [levenshteinDistance, if_neg h1, if_neg h2, if_pos h3]
        rw [h3, levFull_self]
      · by_cases h4 : s1.length < s2.length
        · rw [levenshteinDistance, if_neg h1, if_neg h2, if_neg h3, if_pos h4]
          rw [levenshteinDistance_core s2 s1 h2 h1 (fun h => h3 h.symm) (by omega)]
          rw [levFull_symm]
        · exact levenshteinDistance_core s1 s2 h1 h2 h3 h4

/-! ## levenshteinRatio and its pure value -/

theorem levenshteinRatio_ok (s1 s2 : List Char) :
    levenshteinRatio s1 s2 = .ok (ratioQ s1 s2) := by
  unfold levenshteinRatio ratioQ
  rw [levenshteinDistance_ok]
  by_cases h : s1 = s2
  · rw [if_pos h, if_pos h]
  · rw [if_neg h, if_neg h]
    dsimp only
    split_ifs <;> rfl

theorem ratioQ_self (s : List Char) : ratioQ s s = 100 := by
  simp [ratioQ]

theorem ratio_frac_bounds (m d : ℕ) (h0 : 0 < m) (hdm : d < m) :
    0 ≤ ((m : ℚ) - (d : ℚ)) / (m : ℚ) * 100 ∧ ((m : ℚ) - (d : ℚ)) / (m : ℚ) * 100 ≤ 100 := by
  have hm : (0 : ℚ) < (m : ℚ) := by exact_mod_cast h0
  have hd : (d : ℚ) < (m : ℚ) := by exact_mod_cast hdm
  constructor
  · apply mul_nonneg (div_nonneg (by linarith) (le_of_lt hm))
    norm_num
  · have hone : ((m : ℚ) - (d : ℚ)) / (m : ℚ) ≤ 1 := by
      rw [div_le_one hm]
      linarith
    calc ((m : ℚ) - (d : ℚ)) / (m : ℚ) * 100 ≤ 1 * 100 := by
          apply mul_le_mul_of_nonneg_right hone
          norm_num
      _ = 100 := by norm_num

theorem ratioQ_nonneg (s1 s2 : List Char) : 0 ≤ ratioQ s1 s2 := by
  unfold ratioQ
  by_cases h1 : s1 = s2
  · rw [if_pos h1]; norm_num
  · rw [if_neg h1]
    dsimp only
    by_cases h2 : max s1.length s2.length = 0
    · rw [if_pos h2]; norm_num
    · rw [if_neg h2]
      by_cases h3 : levFull s1 s2 = 0
      · rw [if_pos h3]; norm_num
      · rw [if_neg h3]
        by_cases h4 : max s1.length s2.length ≤ levFull s1 s2
        · rw [if_pos h4]
        · rw [if_neg h4]
          exact (ratio_frac_bounds _ _ (Nat.pos_of_ne_zero h2) (by omega)).1

theorem ratioQ_le_100 (s1 s2 : List Char) : ratioQ s1 s2 ≤ 100 := by
  unfold ratioQ
  by_cases h1 : s1 = s2
  · rw [if_pos h1]
  · rw [if_neg h1]
    dsimp only
    by_cases h2 : max s1.length s2.length = 0
    · rw [if_pos h2]
    · rw [if_neg h2]
      by_cases h3 : levFull s1 s2 = 0
      · rw [if_pos h3]
      · rw [if_neg h3]
        by_cases h4 : max s1.length s2.length ≤ levFull s1 s2
        · rw [if_pos h4]; norm_num
        · rw [if_neg h4]
          exact (ratio_frac_bounds _ _ (Nat.pos_of_ne_zero h2) (by omega)).2

theorem ratioQ_symm (s1 s2 : List Char) : ratioQ s1 s2 = ratioQ s2 s1 := by
  by_cases h : s1 = s2
  · rw [h]
  · unfold ratioQ
    rw [if_neg h, if_neg (fun hh : s2 = s1 => h hh.symm)]
    dsimp only
    rw [levFull_symm s1 s2, Nat.max_comm s1.length s2.length]

/-! ## sortTokens canonical form -/

theorem joinSpace_pair (t0 t1 : List Char) : joinSpace [t0, t1] = t0 ++ ' ' :: t1 := by
  simp [joinSpace, List.intercalate]

theorem sortTokens_eq_canonical (ts : List (List Char)) :
    sortTokens ts = joinSpace (List.insertionSort (· ≤ ·) ts) := by
  unfold sortTokens
  by_cases hlen : ts.length ≤ 1
  · rw [if_pos hlen]
    match ts, hlen with
    | [], _ => rfl
    | [t], _ => rfl
  · rw [if_neg hlen]
    match ts, hlen with
    | [], h => exact (h (by simp)).elim
    | [t], h => exact (h (by simp)).elim
    | [t0, t1], _ =>
      dsimp only [List.insertionSort, List.orderedInsert]
      by_cases h : t0 ≤ t1
      · rw [if_pos h]
        by_cases hlt : t0 < t1
        · rw [if_pos hlt, joinSpace_pair]
        · have heq : t0 = t1 := le_antisymm h (not_lt.mp hlt)
          rw [if_neg hlt, heq, joinSpace_pair]
      · rw [if_neg h]
        have hlt : ¬t0 < t1 := fun hh => h (le_of_lt hh)
        rw [if_neg hlt, joinSpace_pair]
    | t0 :: t1 :: t2 :: rest, _ => rfl

theorem sortTokens_perm {l1 l2 : List (List Char)} (h : l1.Perm l2) :
    sortTokens l1 = sortTokens l2 := by
  rw [sortTokens_eq_canonical, sortTokens_eq_canonical]
  congr 1
  apply List.eq_of_perm_of_sorted (r := (· ≤ · : List Char → List Char → Prop))
  · exact (List.perm_insertionSort _ l1).trans (h.trans (List.perm_insertionSort _ l2).symm)
  · exact List.sorted_insertionSort _ l1
  · exact List.sorted_insertionSort _ l2

/-! ## Fold-max helpers -/

theorem foldr_max_pull (a b : ℚ) (l : List ℚ) :
    l.foldr max (max a b) = max a (l.foldr max b) := by
  induction l with
  | nil => rfl
  | cons x l ih =>
    simp only [List.foldr_cons, ih]
    rw [max_left_comm]

theorem foldl_max_eq_foldr (l : List ℚ) : ∀ b, l.foldl max b = l.foldr max b := by
  induction l with
  | nil => intro b; rfl
  | cons x l ih =>
    intro b
    simp only [List.foldl_cons, List.foldr_cons, ih (max b x)]
    rw [max_comm b x, foldr_max_pull]

theorem foldr_max_init_le (b : ℚ) (l : List ℚ) : b ≤ l.foldr max b := by
  induction l with
  | nil => exact le_refl b
  | cons x l ih =>
    simp only [List.foldr_cons]
    exact le_trans ih (le_max_right x _)

theorem foldr_max_le (c b : ℚ) (l : List ℚ) (hb : b ≤ c) (hl : ∀ x ∈ l, x ≤ c) :
    l.foldr max b ≤ c := by
  induction l with
  | nil => exact hb
  | cons x l ih =>
    simp only [List.foldr_cons]
    exact max_le (hl x (by simp)) (ih (fun y hy => hl y (by simp [hy])))

theorem foldl_max_absorb (c : ℚ) (l : List ℚ) (hl : ∀ x ∈ l, x ≤ c) :
    l.foldl max c = c := by
  rw [foldl_max_eq_foldr]
  exact le_antisymm (foldr_max_le c c l (le_refl c) hl) (foldr_max_init_le c l)

/-! ## partialRatio refines partialRatioQ -/

theorem partialLoop_eq (sh lo : List Char) (w : ℕ) :
    ∀ fuel i best, 0 ≤ best → best ≤ 100 →
    partialLoop sh lo w fuel i best =
      .ok (((List.range' i fuel).map
        (fun k => ratioQ sh ((lo.drop k).take w))).foldl max best) := by
  intro fuel
  induction fuel with
  | zero =>
    intro i best _h0 _h100
    rw [partialLoop]
    rfl
  | succ fuel ih =>
    intro i best h0 h100
    rw [partialLoop, levenshteinRatio_ok]
    dsimp only
    by_cases hb : max best (ratioQ sh ((lo.drop i).take w)) = 100
    · rw [if_pos hb]
      rw [List.range'_succ]
      simp only [List.map_cons, List.foldl_cons]
      rw [hb]
      rw [foldl_max_absorb 100 _ (fun x hx => by
        rcases List.mem_map.mp hx with ⟨k, _hk, hxk⟩
        rw [← hxk]
        exact ratioQ_le_100 sh _)]
    · rw [if_neg hb]
      rw [List.range'_succ]
      simp only [List.map_cons, List.foldl_cons]
      exact ih (i + 1) _ (le_trans h0 (le_max_left _ _))
        (max_le h100 (ratioQ_le_100 sh _))

theorem partialRatio_ok (s1 s2 : List Char) :
    partialRatio s1 s2 = .ok (partialRatioQ s1 s2) := by
  unfold partialRatio partialRatioQ
  dsimp only
  split_ifs <;> try rfl
  all_goals rw [partialLoop_eq _ _ _ _ 0 0 (le_refl 0) (by norm_num)]
  all_goals unfold windowMax
  all_goals rw [List.range_eq_range', foldl_max_eq_foldr]

theorem windowMax_nonneg (sh lo : List Char) : 0 ≤ windowMax sh lo := by
  unfold windowMax
  exact foldr_max_init_le 0 _

theorem windowMax_le_100 (sh lo : List Char) : windowMax sh lo ≤ 100 := by
  unfold windowMax
  apply foldr_max_le
  · norm_num
  · intro x hx
    rcases List.mem_map.mp hx with ⟨k, _hk, hxk⟩
    rw [← hxk]
    exact ratioQ_le_100 _ _

theorem partialRatioQ_nonneg (s1 s2 : List Char) : 0 ≤ partialRatioQ s1 s2 := by
  unfold partialRatioQ
  dsimp only
  split_ifs <;> try norm_num
  all_goals exact windowMax_nonneg _ _

theorem partialRatioQ_le_100 (s1 s2 : List Char) : partialRatioQ s1 s2 ≤ 100 := by
  unfold partialRatioQ
  dsimp only
  split_ifs <;> try norm_num
  all_goals exact windowMax_le_100 _ _

/-! ## tokenSortRatio and tokenSetRatio refine their pure values -/

theorem tokenSortRatio_ok (s1 s2 : List Char) :
    tokenSortRatio s1 s2 = .ok (tokenSortRatioQ s1 s2) := by
  unfold tokenSortRatio tokenSortRatioQ
  dsimp only
  split_ifs <;> try rfl
  exact levenshteinRatio_ok _ _

theorem tokenSortRatioQ_nonneg (s1 s2 : List Char) : 0 ≤ tokenSortRatioQ s1 s2 := by
  unfold tokenSortRatioQ
  dsimp only
  split_ifs <;> try norm_num
  exact ratioQ_nonneg _ _

theorem tokenSortRatioQ_le_100 (s1 s2 : List Char) : tokenSortRatioQ s1 s2 ≤ 100 := by
  unfold tokenSortRatioQ
  dsimp only
  split_ifs <;> try norm_num
  exact ratioQ_le_100 _ _

theorem tokenSetRatio_ok (s1 s2 : List Char) :
    tokenSetRatio s1 s2 = .ok (tokenSetRatioQ s1 s2) := by
  unfold tokenSetRatio tokenSetRatioQ
  dsimp only
  split_ifs <;> try rfl
  all_goals repeat rw [levenshteinRatio_ok]

theorem tokenSetRatioQ_nonneg (s1 s2 : List Char) : 0 ≤ tokenSetRatioQ s1 s2 := by
  unfold tokenSetRatioQ
  dsimp only
  split_ifs <;> try norm_num
  all_goals try exact Or.inr (Or.inr (ratioQ_nonneg _ _))

theorem tokenSetRatioQ_le_100 (s1 s2 : List Char) : tokenSetRatioQ s1 s2 ≤ 100 := by
  unfold tokenSetRatioQ
  dsimp only
  split_ifs <;> try norm_num
  all_goals try exact ratioQ_le_100 _ _
  all_goals try exact ⟨ratioQ_le_100 _ _, ratioQ_le_100 _ _, ratioQ_le_100 _ _⟩

/-! ## Symmetry of the composite scorers -/

theorem partialRatioQ_symm (s1 s2 : List Char) : partialRatioQ s1 s2 = partialRatioQ s2 s1 := by
  rcases Nat.lt_trichotomy s1.length s2.length with hlt | heq | hgt
  · unfold partialRatioQ
    dsimp only
    rw [if_pos (le_of_lt hlt), if_neg (by omega : ¬s1.length > s2.length),
      if_neg (by omega : ¬s2.length ≤ s1.length), if_pos (by omega : s2.length > s1.length)]
  · by_cases hss : s1 = s2
    · rw [hss]
    · have h0 : ¬s1.length = 0 := by
        intro h
        have h2 : s2.length = 0 := by omega
        exact hss ((List.length_eq_zero.mp h).trans (List.length_eq_zero.mp h2).symm)
      have h0' : ¬s2.length = 0 := by omega
      have hinf1 : ¬s1 <:+: s2 := fun h => hss (h.eq_of_length heq)
      have hinf2 : ¬s2 <:+: s1 := fun h => hss (h.eq_of_length heq.symm).symm
      have hps1 : ¬(s1 <+: s2 ∨ s1 <:+ s2) := by
        rintro (h | h)
        · exact hss (h.eq_of_length heq)
        · exact hss (h.eq_of_length heq)
      have hps2 : ¬(s2 <+: s1 ∨ s2 <:+ s1) := by
        rintro (h | h)
        · exact hss (h.eq_of_length heq.symm).symm
        · exact hss (h.eq_of_length heq.symm).symm
      unfold partialRatioQ
      dsimp only
      rw [if_pos (le_of_eq heq), if_neg (by omega : ¬s1.length > s2.length),
        if_pos (le_of_eq heq.symm), if_neg (by omega : ¬s2.length > s1.length)]
      rw [if_neg h0, if_neg h0', if_neg h0', if_neg h0]
      rw [if_neg hinf1, if_neg hinf2, if_neg hps1, if_neg hps2]
      unfold windowMax
      have hz1 : s2.length - s1.length = 0 := by omega
      have hz2 : s1.length - s2.length = 0 := by omega
      rw [hz1, hz2]
      simp only [List.range_eq_range', List.range'_succ, List.range', List.map_cons,
        List.map_nil, List.foldr_cons, List.foldr_nil, List.drop_zero]
      rw [List.take_of_length_le (by omega), List.take_of_length_le (by omega)]
      rw [ratioQ_symm]
  · unfold partialRatioQ
    dsimp only
    rw [if_neg (by omega : ¬s1.length ≤ s2.length), if_pos (by omega : s1.length > s2.length),
      if_pos (le_of_lt hgt), if_neg (by omega : ¬s2.length > s1.length)]

theorem tokenSortRatioQ_symm (s1 s2 : List Char) :
    tokenSortRatioQ s1 s2 = tokenSortRatioQ s2 s1 := by
  unfold tokenSortRatioQ
  dsimp only
  by_cases h1 : (tokenize s1).length = 0 <;> by_cases h2 : (tokenize s2).length = 0
  · rw [if_pos ⟨h1, h2⟩, if_pos ⟨h2, h1⟩]
  · rw [if_neg (fun h : (tokenize s1).length = 0 ∧ (tokenize s2).length = 0 => h2 h.2), if_pos (Or.inl h1 : (tokenize s1).length = 0 ∨ (tokenize s2).length = 0),
      if_neg (fun h : (tokenize s2).length = 0 ∧ (tokenize s1).length = 0 => h2 h.1), if_pos (Or.inr h1 : (tokenize s2).length = 0 ∨ (tokenize s1).length = 0)]
  · rw [if_neg (fun h : (tokenize s1).length = 0 ∧ (tokenize s2).length = 0 => h1 h.1), if_pos (Or.inr h2 : (tokenize s1).length = 0 ∨ (tokenize s2).length = 0),
      if_neg (fun h : (tokenize s2).length = 0 ∧ (tokenize s1).length = 0 => h1 h.2), if_pos (Or.inl h2 : (tokenize s2).length = 0 ∨ (tokenize s1).length = 0)]
  · rw [if_neg (fun h : (tokenize s1).length = 0 ∧ (tokenize s2).length = 0 => h1 h.1), if_neg (fun h : (tokenize s1).length = 0 ∨ (tokenize s2).length = 0 => h.elim h1 h2),
      if_neg (fun h : (tokenize s2).length = 0 ∧ (tokenize s1).length = 0 => h2 h.1), if_neg (fun h : (tokenize s2).length = 0 ∨ (tokenize s1).length = 0 => h.elim h2 h1)]
    by_cases hs : sortTokens (tokenize s1) = sortTokens (tokenize s2)
    · rw [if_pos hs, if_pos hs.symm]
    · rw [if_neg hs, if_neg (fun hh => hs hh.symm), ratioQ_symm]

theorem tokenSetRatioQ_symm (s1 s2 : List Char) :
    tokenSetRatioQ s1 s2 = tokenSetRatioQ s2 s1 := by
  have hnodA : (tokenSet (tokenize s1)).Nodup := List.nodup_dedup _
  have hnodB : (tokenSet (tokenize s2)).Nodup := List.nodup_dedup _
  have hperm : ((tokenSet (tokenize s1)).filter
      (fun t => decide (t ∈ tokenSet (tokenize s2)))).Perm
      ((tokenSet (tokenize s2)).filter (fun t => decide (t ∈ tokenSet (tokenize s1)))) := by
    rw [List.perm_ext_iff_of_nodup (hnodA.filter _) (hnodB.filter _)]
    intro x
    simp only [List.mem_filter, decide_eq_true_eq]
    tauto
  have hsi : sortTokens ((tokenSet (tokenize s1)).filter
      (fun t => decide (t ∈ tokenSet (tokenize s2)))) =
      sortTokens ((tokenSet (tokenize s2)).filter
      (fun t => decide (t ∈ tokenSet (tokenize s1)))) := sortTokens_perm hperm
  have hc1 : ∀ rest : List (List Char),
      sortTokens ((tokenSet (tokenize s1)).filter
        (fun t => decide (t ∈ tokenSet (tokenize s2))) ++ rest) =
      sortTokens ((tokenSet (tokenize s2)).filter
        (fun t => decide (t ∈ tokenSet (tokenize s1))) ++ rest) :=
    fun rest => sortTokens_perm (hperm.append_right rest)
  unfold tokenSetRatioQ
  dsimp only
  by_cases h1 : (tokenize s1).length = 0 <;> by_cases h2 : (tokenize s2).length = 0
  · rw [if_pos ⟨h1, h2⟩, if_pos ⟨h2, h1⟩]
  · rw [if_neg (fun h : (tokenize s1).length = 0 ∧ (tokenize s2).length = 0 => h2 h.2), if_pos (Or.inl h1 : (tokenize s1).length = 0 ∨ (tokenize s2).length = 0),
      if_neg (fun h : (tokenize s2).length = 0 ∧ (tokenize s1).length = 0 => h2 h.1), if_pos (Or.inr h1 : (tokenize s2).length = 0 ∨ (tokenize s1).length = 0)]
  · rw [if_neg (fun h : (tokenize s1).length = 0 ∧ (tokenize s2).length = 0 => h1 h.1), if_pos (Or.inr h2 : (tokenize s1).length = 0 ∨ (tokenize s2).length = 0),
      if_neg (fun h : (tokenize s2).length = 0 ∧ (tokenize s1).length = 0 => h1 h.2), if_pos (Or.inl h2 : (tokenize s2).length = 0 ∨ (tokenize s1).length = 0)]
  · rw [if_neg (fun h : (tokenize s1).length = 0 ∧ (tokenize s2).length = 0 => h1 h.1), if_neg (fun h : (tokenize s1).length = 0 ∨ (tokenize s2).length = 0 => h.elim h1 h2),
      if_neg (fun h : (tokenize s2).length = 0 ∧ (tokenize s1).length = 0 => h2 h.1), if_neg (fun h : (tokenize s2).length = 0 ∨ (tokenize s1).length = 0 => h.elim h2 h1)]
    have hlen : ((tokenSet (tokenize s1)).filter
        (fun t => decide (t ∈ tokenSet (tokenize s2)))).length =
        ((tokenSet (tokenize s2)).filter
        (fun t => decide (t ∈ tokenSet (tokenize s1)))).length := hperm.length_eq
    by_cases hz : ((tokenSet (tokenize s1)).filter
        (fun t => decide (t ∈ tokenSet (tokenize s2)))).length = 0
    · rw [if_pos hz, if_pos (show ((tokenSet (tokenize s2)).filter
        (fun t => decide (t ∈ tokenSet (tokenize s1)))).length = 0 by omega)]
    · rw [if_neg hz, if_neg (show ¬((tokenSet (tokenize s2)).filter
        (fun t => decide (t ∈ tokenSet (tokenize s1)))).length = 0 by omega)]
      rw [hsi, hc1, hc1, max_left_comm]
      congr 1
      congr 1
      exact ratioQ_symm _ _

theorem lenRatioQ_symm (s1 s2 : List Char) : lenRatioQ s1 s2 = lenRatioQ s2 s1 := by
  unfold lenRatioQ
  rcases Nat.lt_trichotomy s1.length s2.length with hlt | heq | hgt
  · rw [if_neg (by omega : ¬s1.length > s2.length), if_pos (by omega : s2.length > s1.length)]
  · rw [if_neg (by omega : ¬s1.length > s2.length), if_neg (by omega : ¬s2.length > s1.length),
      heq]
  · rw [if_pos (by omega : s1.length > s2.length), if_neg (by omega : ¬s2.length > s1.length)]

/-! ## weightedRatio refines weightedRatioQ -/

theorem weightedRatio_ok (s1 s2 : List Char) :
    weightedRatio s1 s2 = .ok (weightedRatioQ s1 s2) := by
  unfold weightedRatio weightedRatioQ
  dsimp only
  by_cases h1 : s1 = s2
  · rw [if_pos h1, if_pos h1]
  · rw [if_neg h1, if_neg h1]
    by_cases h2 : lenRatioQ s1 s2 > 0.8
    · rw [if_pos h2, if_pos h2, levenshteinRatio_ok]
      dsimp only
      by_cases h3 : ratioQ s1 s2 = 100
      · rw [if_pos h3, if_pos h3]
      · rw [if_neg h3, if_neg h3, tokenSortRatio_ok]
        dsimp only
        by_cases h4 : tokenSortRatioQ s1 s2 = 100
        · rw [if_pos h4, if_pos h4]
        · rw [if_neg h4, if_neg h4, tokenSetRatio_ok]
    · rw [if_neg h2, if_neg h2]
      by_cases h3 : lenRatioQ s1 s2 < 0.6
      · rw [if_pos h3, if_pos h3, partialRatio_ok]
        dsimp only
        by_cases h4 : partialRatioQ s1 s2 = 100
        · rw [if_pos h4, if_pos h4]
        · rw [if_neg h4, if_neg h4, tokenSortRatio_ok, tokenSetRatio_ok]
      · rw [if_neg h3, if_neg h3, levenshteinRatio_ok]
        dsimp only
        by_cases h4 : ratioQ s1 s2 = 100
        · rw [if_pos h4, if_pos h4]
        · rw [if_neg h4, if_neg h4, partialRatio_ok]
          dsimp only
          by_cases h5 : partialRatioQ s1 s2 = 100
          · rw [if_pos h5, if_pos h5]
          · rw [if_neg h5, if_neg h5, tokenSortRatio_ok, tokenSetRatio_ok]

theorem weightedRatioQ_symm (s1 s2 : List Char) :
    weightedRatioQ s1 s2 = weightedRatioQ s2 s1 := by
  by_cases h : s1 = s2
  · rw [h]
  · unfold weightedRatioQ
    dsimp only
    rw [if_neg h, if_neg (fun hh : s2 = s1 => h hh.symm)]
    rw [lenRatioQ_symm s1 s2, ratioQ_symm s1 s2, tokenSortRatioQ_symm s1 s2,
      tokenSetRatioQ_symm s1 s2, partialRatioQ_symm s1 s2]

theorem mul_095_le_100 {x : ℚ} (hx : x ≤ 100) : x * 0.95 ≤ 100 := by
  nlinarith

/-- The branch formulas of `weightedRatioQ` for distinct inputs: the
early 100-returns agree with the max formulas. -/
theorem weightedRatioQ_branches (s1 s2 : List Char) (h : ¬s1 = s2) :
    (lenRatioQ s1 s2 > 0.8 →
      weightedRatioQ s1 s2 =
        max (ratioQ s1 s2) (max (tokenSortRatioQ s1 s2) (tokenSetRatioQ s1 s2))) ∧
    (lenRatioQ s1 s2 < 0.6 →
      weightedRatioQ s1 s2 =
        max (partialRatioQ s1 s2)
          (max (tokenSortRatioQ s1 s2 * 0.95) (tokenSetRatioQ s1 s2 * 0.95))) ∧
    (¬lenRatioQ s1 s2 > 0.8 → ¬lenRatioQ s1 s2 < 0.6 →
      weightedRatioQ s1 s2 =
        max (ratioQ s1 s2)
          (max (partialRatioQ s1 s2)
            (max (tokenSortRatioQ s1 s2) (tokenSetRatioQ s1 s2)))) := by
  have hts := tokenSortRatioQ_le_100 s1 s2
  have htset := tokenSetRatioQ_le_100 s1 s2
  have hr := ratioQ_le_100 s1 s2
  have hp := partialRatioQ_le_100 s1 s2
  refine ⟨fun h2 => ?_, fun h3 => ?_, fun h2 h3 => ?_⟩
  · unfold weightedRatioQ
    dsimp only
    rw [if_neg h, if_pos h2]
    by_cases hr100 : ratioQ s1 s2 = 100
    · rw [if_pos hr100, hr100]
      rw [max_eq_left (max_le hts htset)]
    · rw [if_neg hr100]
      by_cases hts100 : tokenSortRatioQ s1 s2 = 100
      · rw [if_pos hts100, hts100]
        rw [max_eq_left htset, max_eq_right hr]
      · rw [if_neg hts100]
  · unfold weightedRatioQ
    dsimp only
    have h2 : ¬lenRatioQ s1 s2 > 0.8 := by
      intro hh
      have : (0.6 : ℚ) < 0.8 := by norm_num
      linarith
    rw [if_neg h, if_neg h2, if_pos h3]
    by_cases hp100 : partialRatioQ s1 s2 = 100
    · rw [if_pos hp100, hp100]
      rw [max_eq_left (max_le (mul_095_le_100 hts) (mul_095_le_100 htset))]
    · rw [if_neg hp100]
  · unfold weightedRatioQ
    dsimp only
    rw [if_neg h, if_neg h2, if_neg h3]
    by_cases hr100 : ratioQ s1 s2 = 100
    · rw [if_pos hr100, hr100]
      rw [max_eq_left (max_le hp (max_le hts htset))]
    · rw [if_neg hr100]
      by_cases hp100 : partialRatioQ s1 s2 = 100
      · rw [if_pos hp100, hp100]
        rw [max_eq_left (max_le hts htset), max_eq_right hr]
      · rw [if_neg hp100]

/-! ## Claim theorems for the scoring engine -/

/-- C4: levenshteinDistance(a, b) equals the minimum number of
single-character insertions, deletions and substitutions needed to
transform a into b; the distance from the empty string is the other
string's length, and the self-distance is 0. -/
theorem c4_levenshtein_min_edits :
    (∀ s t : List Char, levenshteinDistance s t = .ok (levFull s t) ∧
      IsLeast {n : ℕ | Transforms n s t} (levFull s t)) ∧
    (∀ s : List Char, levenshteinDistance [] s = .ok s.length ∧
      levenshteinDistance s [] = .ok s.length ∧ levenshteinDistance s s = .ok 0) := by
  constructor
  · intro s t
    exact ⟨levenshteinDistance_ok s t, levFull_isLeast s t⟩
  · intro s
    refine ⟨?_, ?_, ?_⟩
    · rw [levenshteinDistance_ok, levFull_nil_left]
    · rw [levenshteinDistance_ok, levFull_nil_right]
    · rw [levenshteinDistance_ok, levFull_self]

/-- C9: levenshteinDistance returns normally on every input pair: the
internal "Array index out of bounds" branches are unreachable. -/
theorem c9_levenshtein_never_throws :
    ∀ s1 s2 : List Char, ∃ n : ℕ, levenshteinDistance s1 s2 = .ok n :=
  fun s1 s2 => ⟨levFull s1 s2, levenshteinDistance_ok s1 s2⟩

/-- C10: every built-in scorer is symmetric in its two arguments. -/
theorem c10_scorers_symmetric :
    ∀ a b : List Char,
      levenshteinRatio a b = levenshteinRatio b a ∧
      partialRatio a b = partialRatio b a ∧
      tokenSortRatio a b = tokenSortRatio b a ∧
      tokenSetRatio a b = tokenSetRatio b a ∧
      weightedRatio a b = weightedRatio b a := by
  intro a b
  refine ⟨?_, ?_, ?_, ?_, ?_⟩
  · rw [levenshteinRatio_ok, levenshteinRatio_ok, ratioQ_symm]
  · rw [partialRatio_ok, partialRatio_ok, partialRatioQ_symm]
  · rw [tokenSortRatio_ok, tokenSortRatio_ok, tokenSortRatioQ_symm]
  · rw [tokenSetRatio_ok, tokenSetRatio_ok, tokenSetRatioQ_symm]
  · rw [weightedRatio_ok, weightedRatio_ok, weightedRatioQ_symm]

/-- C5: the dispatch formulas of weightedRatio — plain max of the
components per length-ratio tier, with the early 100-returns agreeing
with the max formulas, and 100 on identical strings. -/
theorem c5_weighted_dispatch :
    (∀ s1 s2 : List Char, s1 ≠ s2 →
      (lenRatioQ s1 s2 > 0.8 →
        weightedRatio s1 s2 = .ok (max (ratioQ s1 s2)
          (max (tokenSortRatioQ s1 s2) (tokenSetRatioQ s1 s2)))) ∧
      (lenRatioQ s1 s2 < 0.6 →
        weightedRatio s1 s2 = .ok (max (partialRatioQ s1 s2)
          (max (tokenSortRatioQ s1 s2 * 0.95) (tokenSetRatioQ s1 s2 * 0.95)))) ∧
      (0.6 ≤ lenRatioQ s1 s2 → lenRatioQ s1 s2 ≤ 0.8 →
        weightedRatio s1 s2 = .ok (max (ratioQ s1 s2) (max (partialRatioQ s1 s2)
          (max (tokenSortRatioQ s1 s2) (tokenSetRatioQ s1 s2)))))) ∧
    (∀ s : List Char, weightedRatio s s = .ok 100) := by
  constructor
  · intro s1 s2 hne
    have hb := weightedRatioQ_branches s1 s2 hne
    refine ⟨fun h2 => ?_, fun h3 => ?_, fun hge hle => ?_⟩
    · rw [weightedRatio_ok, hb.1 h2]
    · rw [weightedRatio_ok, hb.2.1 h3]
    · rw [weightedRatio_ok, hb.2.2 (not_lt.mpr hle) (not_lt.mpr hge)]
  · intro s
    have hq : weightedRatioQ s s = 100 := by
      unfold weightedRatioQ
      dsimp only
      rw [if_pos rfl]
    rw [weightedRatio_ok, hq]

/-- C5 witness: each dispatch tier exercised at a concrete input. -/
theorem c5_weighted_dispatch_witness :
    (lenRatioQ (['a', 'b'] : List Char) ['b', 'a'] > 0.8 ∧
      weightedRatio (['a', 'b'] : List Char) ['b', 'a'] = .ok (max (ratioQ ['a', 'b'] ['b', 'a'])
        (max (tokenSortRatioQ ['a', 'b'] ['b', 'a']) (tokenSetRatioQ ['a', 'b'] ['b', 'a'])))) ∧
    (lenRatioQ (['a'] : List Char) ['a', 'b', 'c'] < 0.6 ∧
      weightedRatio (['a'] : List Char) ['a', 'b', 'c'] = .ok (max (partialRatioQ ['a'] ['a', 'b', 'c'])
        (max (tokenSortRatioQ ['a'] ['a', 'b', 'c'] * 0.95)
          (tokenSetRatioQ ['a'] ['a', 'b', 'c'] * 0.95)))) ∧
    (0.6 ≤ lenRatioQ (['a', 'b'] : List Char) ['a', 'x', 'y'] ∧
      lenRatioQ (['a', 'b'] : List Char) ['a', 'x', 'y'] ≤ 0.8 ∧
      weightedRatio (['a', 'b'] : List Char) ['a', 'x', 'y'] =
        .ok (max (ratioQ ['a', 'b'] ['a', 'x', 'y']) (max (partialRatioQ ['a', 'b'] ['a', 'x', 'y'])
          (max (tokenSortRatioQ ['a', 'b'] ['a', 'x', 'y'])
            (tokenSetRatioQ ['a', 'b'] ['a', 'x', 'y']))))) ∧
    weightedRatio (['q'] : List Char) ['q'] = .ok 100 := by
  refine ⟨⟨by norm_num [lenRatioQ], ?_⟩, ⟨by norm_num [lenRatioQ], ?_⟩,
    ⟨by norm_num [lenRatioQ], by norm_num [lenRatioQ], ?_⟩, ?_⟩
  · exact ((c5_weighted_dispatch.1 ['a', 'b'] ['b', 'a'] (by decide)).1
      (by norm_num [lenRatioQ]))
  · exact ((c5_weighted_dispatch.1 ['a'] ['a', 'b', 'c'] (by decide)).2.1
      (by norm_num [lenRatioQ]))
  · exact ((c5_weighted_dispatch.1 ['a', 'b'] ['a', 'x', 'y'] (by decide)).2.2
      (by norm_num [lenRatioQ]) (by norm_num [lenRatioQ]))
  · exact c5_weighted_dispatch.2 ['q']

/-- C8: partialRatio is 0 when either string is empty, 100 when the
longer contains the shorter, and otherwise the maximum window ratio over
every offset; with the spec's two concrete examples. -/
theorem c8_partial_window_max :
    ∀ s1 s2 : List Char,
      ((s1 = [] ∨ s2 = []) → partialRatio s1 s2 = .ok 0) ∧
      (¬(s1 = [] ∨ s2 = []) →
        (if s1.length ≤ s2.length then s1 else s2) <:+:
          (if s1.length > s2.length then s1 else s2) →
        partialRatio s1 s2 = .ok 100) ∧
      (¬(s1 = [] ∨ s2 = []) →
        ¬(if s1.length ≤ s2.length then s1 else s2) <:+:
          (if s1.length > s2.length then s1 else s2) →
        partialRatio s1 s2 = .ok (windowMax (if s1.length ≤ s2.length then s1 else s2)
          (if s1.length > s2.length then s1 else s2))) ∧
      partialRatio ['a', 'b', 'c'] ['a', 'b', 'c', 'd', 'e', 'f'] = .ok 100 ∧
      partialRatio [] ['x'] = .ok 0 := by
  intro s1 s2
  have hex1 : partialRatio ['a', 'b', 'c'] ['a', 'b', 'c', 'd', 'e', 'f'] = .ok 100 := by
    decide
  have hex2 : partialRatio [] ['x'] = .ok 0 := by decide
  refine ⟨fun hemp => ?_, fun hne hinf => ?_, fun hne hninf => ?_, hex1, hex2⟩
  · unfold partialRatio
    dsimp only
    have hsh : (if s1.length ≤ s2.length then s1 else s2).length = 0 := by
      rcases hemp with h | h <;> subst h <;> split <;> simp_all
    rw [if_pos hsh]
  · unfold partialRatio
    dsimp only
    push_neg at hne
    rw [if_neg (by split <;> simp [hne.1, hne.2]), if_neg (by split <;> simp [hne.1, hne.2]),
      if_pos hinf]
  · rw [partialRatio_ok]
    unfold partialRatioQ
    dsimp only
    push_neg at hne
    rw [if_neg (by split <;> simp [hne.1, hne.2]), if_neg (by split <;> simp [hne.1, hne.2]),
      if_neg hninf]
    rw [if_neg (fun hps => hninf (hps.elim (fun h => h.isInfix) (fun h => h.isInfix)))]

/-- C8 witness: each case of the theorem exercised concretely. -/
theorem c8_partial_window_max_witness :
    partialRatio ['x'] [] = .ok 0 ∧
    partialRatio ['a', 'b'] ['z', 'a', 'b', 'z'] = .ok 100 ∧
    partialRatio ['a', 'c'] ['a', 'b', 'x', 'y'] =
      .ok (windowMax ['a', 'c'] ['a', 'b', 'x', 'y']) := by
  refine ⟨?_, ?_, ?_⟩
  · exact (c8_partial_window_max ['x'] []).1 (Or.inr rfl)
  · exact (c8_partial_window_max ['a', 'b'] ['z', 'a', 'b', 'z']).2.1 (by decide) (by decide)
  · exact (c8_partial_window_max ['a', 'c'] ['a', 'b', 'x', 'y']).2.2.1 (by decide) (by decide)

/-! ## The comparator is total; sorting yields comparator-adjacent output -/

theorem resultLe_total (x y : ExtractResult) : resultLe x y ∨ resultLe y x := by
  unfold resultLe resultCmp strCmp
  dsimp only
  by_cases hd : |y.score - x.score| < 0.001
  · have hd' : |x.score - y.score| < 0.001 := by rw [abs_sub_comm]; exact hd
    rw [if_pos hd, if_pos hd']
    rcases lt_trichotomy x.choice y.choice with h | h | h
    · left
      rw [if_pos h]
      norm_num
    · left
      rw [if_neg (by rw [h]; exact lt_irrefl _), if_neg (by rw [h]; exact lt_irrefl _)]
    · right
      rw [if_pos h]
      norm_num
  · have hd' : ¬|x.score - y.score| < 0.001 := by rw [abs_sub_comm]; exact hd
    rw [if_neg hd, if_neg hd']
    rcases le_total y.score x.score with h | h
    · left
      linarith
    · right
      linarith

theorem chain'_orderedInsert {α : Type} (r : α → α → Prop) [DecidableRel r]
    (htot : ∀ x y, r x y ∨ r y x) (a : α) :
    ∀ l : List α, l.Chain' r → (List.orderedInsert r a l).Chain' r := by
  intro l
  induction l with
  | nil =>
    intro _
    simp [List.orderedInsert]
  | cons b l ih =>
    intro hch
    rw [List.orderedInsert]
    by_cases hab : r a b
    · rw [if_pos hab]
      exact List.chain'_cons.mpr ⟨hab, hch⟩
    · rw [if_neg hab]
      have hba : r b a := (htot a b).resolve_left hab
      have htl : l.Chain' r := hch.tail
      apply List.chain'_cons'.mpr
      refine ⟨?_, ih htl⟩
      intro y hy
      cases l with
      | nil =>
        simp [List.orderedInsert] at hy
        rw [← hy]
        exact hba
      | cons c l' =>
        rw [List.orderedInsert] at hy
        by_cases hac : r a c
        · rw [if_pos hac] at hy
          simp at hy
          rw [← hy]
          exact hba
        · rw [if_neg hac] at hy
          simp at hy
          rw [← hy]
          exact (List.chain'_cons.mp hch).1

theorem chain'_insertionSort {α : Type} (r : α → α → Prop) [DecidableRel r]
    (htot : ∀ x y, r x y ∨ r y x) :
    ∀ l : List α, (List.insertionSort r l).Chain' r := by
  intro l
  induction l with
  | nil => simp [List.insertionSort]
  | cons a l ih =>
    rw [List.insertionSort]
    exact chain'_orderedInsert r htot a _ ih

theorem chain'_sortResults (l : List ExtractResult) : (sortResults l).Chain' resultLe :=
  chain'_insertionSort resultLe resultLe_total l

theorem chain'_take {α : Type} {r : α → α → Prop} {l : List α} (h : l.Chain' r) (n : ℕ) :
    (l.take n).Chain' r :=
  h.prefix (List.take_prefix n l)

/-- What an adjacent comparator-ordered pair means: tie within 0.001
broken by text, otherwise strictly descending score. -/
theorem resultLe_elim {x y : ExtractResult} (h : resultLe x y) :
    (|x.score - y.score| < 0.001 ∧ x.choice ≤ y.choice) ∨
    (¬|x.score - y.score| < 0.001 ∧ y.score < x.score) := by
  unfold resultLe resultCmp strCmp at h
  dsimp only at h
  by_cases hd : |y.score - x.score| < 0.001
  · rw [if_pos hd] at h
    left
    refine ⟨by rw [abs_sub_comm]; exact hd, ?_⟩
    by_cases hxy : x.choice < y.choice
    · exact le_of_lt hxy
    · rw [if_neg hxy] at h
      by_cases hyx : y.choice < x.choice
      · rw [if_pos hyx] at h
        norm_num at h
      · exact not_lt.mp hyx
  · rw [if_neg hd] at h
    right
    have habs : ¬|x.score - y.score| < 0.001 := by rw [abs_sub_comm]; exact hd
    refine ⟨habs, ?_⟩
    have h1 : (0.001 : ℚ) ≤ |y.score - x.score| := not_lt.mp hd
    have h2 : y.score - x.score ≤ 0 := h
    have h3 : |y.score - x.score| = -(y.score - x.score) ∨
        |y.score - x.score| = y.score - x.score := by
      rcases abs_choice (y.score - x.score) with hh | hh
      · right; exact hh
      · left; exact hh
    rcases h3 with hh | hh <;> rw [hh] at h1 <;> linarith

/-! ## Heap operations preserve length -/

theorem bubbleUp_length : ∀ (heap : List ExtractResult) (i : ℕ),
    (bubbleUp heap i).length = heap.length := by
  intro heap i
  induction i using Nat.strong_induction_on generalizing heap with
  | _ i ih =>
    match i with
    | 0 => rw [bubbleUp]
    | index + 1 =>
      rw [bubbleUp]
      match h1 : heap[(index + 1 - 1) / 2]?, h2 : heap[index + 1]? with
      | some parentItem, some currentItem =>
        dsimp only
        by_cases hle : parentItem.score ≤ currentItem.score
        · rw [if_pos hle]
        · rw [if_neg hle]
          rw [ih ((index + 1 - 1) / 2) (by omega)]
          simp [List.length_set]
      | some _, none => rfl
      | none, some _ => rfl
      | none, none => rfl


theorem bubbleDown_step (heap : List ExtractResult) (index : ℕ) :
    bubbleDown heap index = heap ∨
    ∃ (s c : ExtractResult) (j : ℕ), index < j ∧ index < heap.length ∧
      bubbleDown heap index = bubbleDown ((heap.set index s).set j c) j := by
  rw [bubbleDown]
  match hidx : heap[index]? with
  | none => exact Or.inl rfl
  | some currentItem =>
    dsimp only
    have hil : index < heap.length := (List.getElem?_eq_some_iff.mp hidx).1
    split <;> split <;> split
    all_goals try exact Or.inl rfl
    all_goals rename_i hne
    all_goals split
    all_goals try exact Or.inl rfl
    all_goals try exact absurd rfl hne
    all_goals refine Or.inr ⟨_, _, _, ?_, hil, rfl⟩
    all_goals omega

theorem bubbleDown_length (heap : List ExtractResult) (i : ℕ) :
    (bubbleDown heap i).length = heap.length := by
  generalize hm : heap.length - i = m
  induction m using Nat.strong_induction_on generalizing heap i with
  | _ m ih =>
    rcases bubbleDown_step heap i with h | ⟨s, c, j, hij, hil, h⟩
    · rw [h]
    · rw [h]
      have hlen : ((heap.set i s).set j c).length = heap.length := by
        simp [List.length_set]
      rw [ih (((heap.set i s).set j c).length - j) (by rw [hlen]; omega) _ j rfl, hlen]


theorem JSArr.get_of_lt (arr : JSArr) {i : ℕ} (h : i < arr.size) :
    ∃ c, arr.get? i = some c :=
  Option.isSome_iff_exists.mp ((arr.dense i).mpr h)

theorem JSArr.get_of_ge (arr : JSArr) {i : ℕ} (h : arr.size ≤ i) :
    arr.get? i = none := by
  rcases ho : arr.get? i with _ | c
  · rfl
  · have := (arr.dense i).mp (by rw [ho]; rfl)
    omega

theorem sortResults_length (l : List ExtractResult) :
    (sortResults l).length = l.length := by
  unfold sortResults
  exact List.length_insertionSort resultLe l

theorem getResults_length (heap : List ExtractResult) :
    (getResults heap).length = heap.length :=
  sortResults_length heap

theorem heapPush_length (size : ℕ) (heap : List ExtractResult) (r : ExtractResult)
    (hle : heap.length ≤ size) (hpos : 0 < size) :
    (heapPush size heap r).length = min size (heap.length + 1) := by
  unfold heapPush
  by_cases hlt : heap.length < size
  · rw [if_pos hlt, bubbleUp_length]
    simp only [List.length_append, List.length_cons, List.length_nil]
    omega
  · rw [if_neg hlt]
    by_cases hsc : r.score > optScore heap[0]?
    · rw [if_pos hsc, bubbleDown_length]
      cases heap with
      | nil => exfalso; simp only [List.length_nil] at hlt; omega
      | cons a t =>
        show (a :: t).length = min size ((a :: t).length + 1)
        simp only [List.length_cons] at hle hlt ⊢
        omega
    · rw [if_neg hsc]
      omega

theorem scoreLoopSmall_ok_length {ε : Type} (q : List Char) (arr : JSArr) (scorer : Scorer ε) :
    ∀ (fuel i : ℕ) (results res : List ExtractResult),
      scoreLoopSmall q arr scorer fuel i results = .ok res →
      res.length = results.length + (min (i + fuel) arr.size - min i arr.size) := by
  intro fuel
  induction fuel with
  | zero =>
    intro i results res h
    rw [scoreLoopSmall] at h
    injection h with h
    subst h
    omega
  | succ fuel ih =>
    intro i results res h
    rcases hi : arr.get? i with _ | choice
    · rw [scoreLoopSmall, hi] at h
      dsimp only at h
      have hge : arr.size ≤ i := by
        by_contra hc
        push_neg at hc
        rcases arr.get_of_lt hc with ⟨c, hcc⟩
        rw [hi] at hcc
        cases hcc
      have := ih (i + 1) results res h
      omega
    · have hlt : i < arr.size := (arr.dense i).mp (by rw [hi]; rfl)
      rw [scoreLoopSmall, hi] at h
      dsimp only at h
      rcases hs : scorer q choice with e | s
      · rw [hs] at h
        simp at h
      · rw [hs] at h
        dsimp only at h
        have := ih (i + 1) (results ++ [⟨choice, s⟩]) res h
        simp only [List.length_append, List.length_cons, List.length_nil] at this
        omega

theorem mediumLoop_ok_length {ε : Type} (q : List Char) (arr : JSArr) (scorer : Scorer ε)
    (lim : ℕ) (hlim : 0 < lim) (hle : lim ≤ arr.size) :
    ∀ (fuel i pm : ℕ) (heap res : List ExtractResult),
      i + fuel = arr.size → heap.length = min lim i → pm ≤ i →
      mediumLoop q arr scorer lim fuel i pm heap = .ok res → res.length = lim := by
  intro fuel
  induction fuel with
  | zero =>
    intro i pm heap res hif hh hpm h
    rw [mediumLoop] at h
    injection h with h
    subst h
    rw [List.length_take, getResults_length, hh]
    omega
  | succ fuel ih =>
    intro i pm heap res hif hh hpm h
    have hlt : i < arr.size := by omega
    rcases arr.get_of_lt hlt with ⟨choice, hi⟩
    rw [mediumLoop, hi] at h
    try dsimp only at h
    rcases hs : scorer q choice with e | score
    · rw [hs] at h
      simp at h
    · rw [hs] at h
      dsimp only at h
      by_cases h100 : score = 100
      · rw [if_pos h100] at h
        have hpushlen : (heapPush lim heap ⟨choice, score⟩).length = min lim (i + 1) := by
          rw [heapPush_length lim heap ⟨choice, score⟩ (by omega) hlim]
          omega
        by_cases hge : pm + 1 ≥ lim
        · rw [if_pos hge] at h
          by_cases hall : (getResults (heapPush lim heap ⟨choice, score⟩)).all
              (fun r => decide (r.score = 100)) = true
          · rw [if_pos hall] at h
            injection h with h
            subst h
            rw [List.length_take, getResults_length, hpushlen]
            omega
          · rw [if_neg hall] at h
            exact ih (i + 1) (pm + 1) _ res (by omega) hpushlen (by omega) h
        · rw [if_neg hge] at h
          exact ih (i + 1) (pm + 1) _ res (by omega) hpushlen (by omega) h
      · rw [if_neg h100] at h
        refine ih (i + 1) pm _ res (by omega) ?_ (by omega) h
        rw [heapPush_length lim heap ⟨choice, score⟩ (by omega) hlim]
        omega

theorem chunkInner_ok_length {ε : Type} (q : List Char) (arr : JSArr) (scorer : Scorer ε)
    (lim : ℕ) (hlim : 0 < lim) :
    ∀ (fuel i pm : ℕ) (heap : List ExtractResult)
      (r : Sum (List ExtractResult) (ℕ × List ExtractResult)),
      i + fuel ≤ arr.size → heap.length = min lim i →
      chunkInner q arr scorer lim fuel i pm heap = .ok r →
      (∀ out, r = .inl out → out.length = lim) ∧
      (∀ pm' heap', r = .inr (pm', heap') → heap'.length = min lim (i + fuel)) := by
  intro fuel
  induction fuel with
  | zero =>
    intro i pm heap r hif hh h
    rw [chunkInner] at h
    injection h with h
    subst h
    refine ⟨fun out hout => Sum.noConfusion hout, fun pm' heap' hr => ?_⟩
    injection hr with hr
    injection hr with h1 h2
    subst h2
    omega
  | succ fuel ih =>
    intro i pm heap r hif hh h
    have hlt : i < arr.size := by omega
    rcases arr.get_of_lt hlt with ⟨choice, hi⟩
    rw [chunkInner, hi] at h
    try dsimp only at h
    rcases hs : scorer q choice with e | score
    · rw [hs] at h
      simp at h
    · rw [hs] at h
      dsimp only at h
      have hpushlen : (heapPush lim heap ⟨choice, score⟩).length = min lim (i + 1) := by
        rw [heapPush_length lim heap ⟨choice, score⟩ (by omega) hlim]
        omega
      by_cases h100 : score = 100
      · rw [if_pos h100] at h
        by_cases hge : pm + 1 ≥ lim
        · rw [if_pos hge] at h
          by_cases hg : lim ≤ (getResults (heapPush lim heap ⟨choice, score⟩)).length ∧
              ((getResults (heapPush lim heap ⟨choice, score⟩)).all
                (fun r => decide (r.score = 100)) = true)
          · rw [if_pos hg] at h
            injection h with h
            subst h
            refine ⟨fun out hout => ?_, fun pm' heap' hr => Sum.noConfusion hr⟩
            injection hout with hout
            subst hout
            rw [List.length_take]
            omega
          · rw [if_neg hg] at h
            have H := ih (i + 1) (pm + 1) _ r (by omega) hpushlen h
            refine ⟨H.1, fun pm' heap' hr => ?_⟩
            have := H.2 pm' heap' hr
            omega
        · rw [if_neg hge] at h
          have H := ih (i + 1) (pm + 1) _ r (by omega) hpushlen h
          refine ⟨H.1, fun pm' heap' hr => ?_⟩
          have := H.2 pm' heap' hr
          omega
      · rw [if_neg h100] at h
        have H := ih (i + 1) pm _ r (by omega) hpushlen h
        refine ⟨H.1, fun pm' heap' hr => ?_⟩
        have := H.2 pm' heap' hr
        omega

theorem samplePush_bounds {ε : Type} (q : List Char) (arr : JSArr) (scorer : Scorer ε)
    (lim : ℕ) (hlim : 0 < lim) :
    ∀ (fuel i : ℕ) (heap res : List ExtractResult),
      heap.length ≤ lim → samplePush q arr scorer lim fuel i heap = .ok res →
      heap.length ≤ res.length ∧ res.length ≤ lim := by
  intro fuel
  induction fuel with
  | zero =>
    intro i heap res hle h
    rw [samplePush] at h
    injection h with h
    subst h
    omega
  | succ fuel ih =>
    intro i heap res hle h
    rcases hi : arr.get? i with _ | choice
    · rw [samplePush, hi] at h
      dsimp only at h
      exact ih (i + 1) heap res hle h
    · rw [samplePush, hi] at h
      dsimp only at h
      rcases hs : scorer q choice with e | score
      · rw [hs] at h
        simp at h
      · rw [hs] at h
        dsimp only at h
        have hpl : (heapPush lim heap ⟨choice, score⟩).length = min lim (heap.length + 1) :=
          heapPush_length lim heap ⟨choice, score⟩ hle hlim
        have H := ih (i + 1) _ res (by omega) h
        omega

theorem sampleChunksLoop_bounds {ε : Type} (q : List Char) (arr : JSArr) (scorer : Scorer ε)
    (lim chunkSize processed : ℕ) (hlim : 0 < lim) :
    ∀ (count c : ℕ) (heap res : List ExtractResult),
      heap.length ≤ lim →
      sampleChunksLoop q arr scorer lim chunkSize processed count c heap = .ok res →
      heap.length ≤ res.length ∧ res.length ≤ lim := by
  intro count
  induction count with
  | zero =>
    intro c heap res hle h
    rw [sampleChunksLoop] at h
    injection h with h
    subst h
    omega
  | succ count ih =>
    intro c heap res hle h
    rw [sampleChunksLoop] at h
    try dsimp only at h
    rcases hsp : samplePush q arr scorer lim
        (min (processed + c * chunkSize + chunkSize) arr.size - (processed + c * chunkSize))
        (processed + c * chunkSize) heap with e | heap'
    · rw [hsp] at h
      simp at h
    · rw [hsp] at h
      dsimp only at h
      have H1 := samplePush_bounds q arr scorer lim hlim _ _ heap heap' hle hsp
      have H2 := ih (c + 1) heap' res (by omega) h
      omega

theorem chunkOuter_ok_length {ε : Type} (q : List Char) (arr : JSArr) (scorer : Scorer ε)
    (lim chunkSize : ℕ) (hlim : 0 < lim) (hle : lim ≤ arr.size) :
    ∀ (fuel start processed pm : ℕ) (heap res : List ExtractResult),
      heap.length = min lim (min start arr.size) →
      arr.size ≤ start + fuel * chunkSize →
      chunkOuter q arr scorer lim chunkSize fuel start processed pm heap = .ok res →
      res.length = lim := by
  intro fuel
  induction fuel with
  | zero =>
    intro start processed pm heap res hh hfuel h
    rw [chunkOuter] at h
    injection h with h
    subst h
    rw [List.length_take, getResults_length]
    omega
  | succ fuel ih =>
    intro start processed pm heap res hh hfuel h
    rw [chunkOuter] at h
    try dsimp only at h
    by_cases hstart : start < arr.size
    · rw [if_pos hstart] at h
      set E := min (start + chunkSize) arr.size with hE
      rcases hci : chunkInner q arr scorer lim (E - start) start pm heap
        with e | (out | ⟨pm2, heap2⟩)
      · rw [hci] at h
        simp at h
      · rw [hci] at h
        dsimp only at h
        injection h with h
        subst h
        have H := chunkInner_ok_length q arr scorer lim hlim
          (E - start) start pm heap _ (by omega) (by omega) hci
        exact H.1 out rfl
      · rw [hci] at h
        dsimp only at h
        have H := chunkInner_ok_length q arr scorer lim hlim
          (E - start) start pm heap _ (by omega) (by omega) hci
        have hlen2 : heap2.length = min lim E := by
          have := H.2 pm2 heap2 rfl
          omega
        have hstep : start + (fuel + 1) * chunkSize = start + chunkSize + fuel * chunkSize := by
          ring
        set P := processed + (E - start) with hP
        by_cases hp : (P : ℚ) > (arr.size : ℚ) * 0.2
        · rw [if_pos hp] at h
          by_cases hg2 : lim ≤ (getResults heap2).length
          · rw [if_pos hg2] at h
            by_cases hm : optScore (getResults heap2)[lim - 1]? > (93 : ℚ)
            · rw [if_pos hm] at h
              rcases hsl : sampleChunksLoop q arr scorer lim chunkSize P
                  (min 2 ((arr.size - P) / chunkSize)) 0 heap2 with e | hp2
              · rw [hsl] at h
                simp at h
              · rw [hsl] at h
                dsimp only at h
                injection h with h
                subst h
                have HB := sampleChunksLoop_bounds q arr scorer lim chunkSize P hlim
                  (min 2 ((arr.size - P) / chunkSize)) 0 heap2 hp2 (by omega) hsl
                have hgr := getResults_length heap2
                rw [List.length_take, getResults_length]
                omega
            · rw [if_neg hm] at h
              exact ih (start + chunkSize) P pm2 heap2 res (by omega) (by omega) h
          · rw [if_neg hg2] at h
            exact ih (start + chunkSize) P pm2 heap2 res (by omega) (by omega) h
        · rw [if_neg hp] at h
          exact ih (start + chunkSize) P pm2 heap2 res (by omega) (by omega) h
    · rw [if_neg hstart] at h
      injection h with h
      subst h
      rw [List.length_take, getResults_length]
      omega

theorem extractChunked_ok_length {ε : Type} (q : List Char) (arr : JSArr) (scorer : Scorer ε)
    (lim : ℕ) (hlim : 0 < lim) (hle : lim ≤ arr.size) (res : List ExtractResult)
    (h : extractChunked q arr scorer lim = .ok res) : res.length = lim := by
  unfold extractChunked at h
  dsimp only at h
  have hCS : 0 < (if arr.size > 200000 then 10000 else if arr.size > 100000 then 7500
      else if arr.size > 50000 then 5000 else 3000) := by
    split
    · norm_num
    · split
      · norm_num
      · split <;> norm_num
  refine chunkOuter_ok_length q arr scorer lim _ hlim hle arr.size 0 0 0 [] res (by simp) ?_ h
  have := Nat.le_mul_of_pos_right arr.size hCS
  omega

/-- C3: `extract` returns exactly `min(limit, |choices|)` results when
`limit > 0` (every tier: full sort, chunked with its early exits, heap),
and the empty list when `limit ≤ 0` or the array is empty. -/
theorem c3_extract_length {ε : Type} (query : List Char) (choices : JSArr)
    (scorer : Scorer ε) (limit : ℤ) (res : List ExtractResult)
    (h : extract query choices scorer limit = .ok res) :
    res.length = (if 0 < limit then min limit.toNat choices.size else 0) ∧
    ((limit ≤ 0 ∨ choices.size = 0) → res = []) := by
  unfold extract at h
  by_cases hsz : choices.size = 0
  · rw [if_pos hsz] at h
    injection h with h
    subst h
    exact ⟨by simp [hsz], fun _ => rfl⟩
  · rw [if_neg hsz] at h
    by_cases hneg : limit ≤ 0
    · rw [if_pos hneg] at h
      injection h with h
      subst h
      refine ⟨?_, fun _ => rfl⟩
      rw [if_neg (by omega)]
      rfl
    · rw [if_neg hneg] at h
      dsimp only at h
      have hpos : 0 < limit := by omega
      set L := (if limit > (choices.size : ℤ) then (choices.size : ℤ) else limit) with hL
      have hlim : 0 < L.toNat := by rw [hL]; split <;> omega
      have hlimle : L.toNat ≤ choices.size := by rw [hL]; split <;> omega
      have hmin : L.toNat = min limit.toNat choices.size := by rw [hL]; split <;> omega
      by_cases htier1 : (choices.size : ℤ) ≤ L * 2
      · rw [if_pos htier1] at h
        rcases hsl : scoreLoopSmall query choices scorer choices.size 0 [] with e | results
        · rw [hsl] at h
          simp at h
        · rw [hsl] at h
          dsimp only at h
          injection h with h
          subst h
          have HL := scoreLoopSmall_ok_length query choices scorer choices.size 0 [] results hsl
          simp only [List.length_nil, Nat.zero_add, Nat.min_self, Nat.zero_min, Nat.sub_zero]
            at HL
          refine ⟨?_, fun hor => ?_⟩
          · rw [List.length_take, sortResults_length, if_pos hpos]
            omega
          · exfalso
            rcases hor with h1 | h1 <;> omega
      · rw [if_neg htier1] at h
        by_cases htier2 : choices.size > 8000
        · rw [if_pos htier2] at h
          have HR := extractChunked_ok_length query choices scorer L.toNat hlim hlimle res h
          refine ⟨?_, fun hor => ?_⟩
          · rw [if_pos hpos]
            omega
          · exfalso
            rcases hor with h1 | h1 <;> omega
        · rw [if_neg htier2] at h
          have HR := mediumLoop_ok_length query choices scorer L.toNat hlim hlimle
            choices.size 0 0 [] res (by omega) (by simp) (by omega) h
          refine ⟨?_, fun hor => ?_⟩
          · rw [if_pos hpos]
            omega
          · exfalso
            rcases hor with h1 | h1 <;> omega

theorem c3_extract_length_witness :
    ((⟨['a'], 50⟩ : ExtractResult) :: [(⟨['b'], 50⟩ : ExtractResult)]).length =
      (if 0 < (2 : ℤ) then min (2 : ℤ).toNat (JSArr.ofList [['a'], ['b'], ['c']]).size else 0) ∧
    (((2 : ℤ) ≤ 0 ∨ (JSArr.ofList [['a'], ['b'], ['c']]).size = 0) →
      ((⟨['a'], 50⟩ : ExtractResult) :: [(⟨['b'], 50⟩ : ExtractResult)]) = []) :=
  c3_extract_length [] (JSArr.ofList [['a'], ['b'], ['c']])
    (fun _ _ => (Except.ok 50 : Except Unit ℚ)) 2
    ((⟨['a'], 50⟩ : ExtractResult) :: [(⟨['b'], 50⟩ : ExtractResult)]) (by with_unfolding_all rfl)

theorem mediumLoop_ok_sorted {ε : Type} (q : List Char) (arr : JSArr) (scorer : Scorer ε)
    (lim : ℕ) :
    ∀ (fuel i pm : ℕ) (heap res : List ExtractResult),
      mediumLoop q arr scorer lim fuel i pm heap = .ok res → res.Chain' resultLe := by
  intro fuel
  induction fuel with
  | zero =>
    intro i pm heap res h
    rw [mediumLoop] at h
    injection h with h
    subst h
    exact chain'_take (chain'_sortResults heap) lim
  | succ fuel ih =>
    intro i pm heap res h
    rcases hi : arr.get? i with _ | choice
    · rw [mediumLoop, hi] at h
      try dsimp only at h
      exact ih (i + 1) pm heap res h
    · rw [mediumLoop, hi] at h
      try dsimp only at h
      rcases hs : scorer q choice with e | score
      · rw [hs] at h
        simp at h
      · rw [hs] at h
        dsimp only at h
        by_cases h100 : score = 100
        · rw [if_pos h100] at h
          by_cases hge : pm + 1 ≥ lim
          · rw [if_pos hge] at h
            by_cases hall : (getResults (heapPush lim heap ⟨choice, score⟩)).all
                (fun r => decide (r.score = 100)) = true
            · rw [if_pos hall] at h
              injection h with h
              subst h
              exact chain'_take (chain'_sortResults _) lim
            · rw [if_neg hall] at h
              exact ih (i + 1) (pm + 1) _ res h
          · rw [if_neg hge] at h
            exact ih (i + 1) (pm + 1) _ res h
        · rw [if_neg h100] at h
          exact ih (i + 1) pm _ res h

theorem chunkInner_ok_sorted {ε : Type} (q : List Char) (arr : JSArr) (scorer : Scorer ε)
    (lim : ℕ) :
    ∀ (fuel i pm : ℕ) (heap : List ExtractResult) (out : List ExtractResult),
      chunkInner q arr scorer lim fuel i pm heap = .ok (.inl out) → out.Chain' resultLe := by
  intro fuel
  induction fuel with
  | zero =>
    intro i pm heap out h
    rw [chunkInner] at h
    simp at h
  | succ fuel ih =>
    intro i pm heap out h
    rcases hi : arr.get? i with _ | choice
    · rw [chunkInner, hi] at h
      try dsimp only at h
      exact ih (i + 1) pm heap out h
    · rw [chunkInner, hi] at h
      try dsimp only at h
      rcases hs : scorer q choice with e | score
      · rw [hs] at h
        simp at h
      · rw [hs] at h
        dsimp only at h
        by_cases h100 : score = 100
        · rw [if_pos h100] at h
          by_cases hge : pm + 1 ≥ lim
          · rw [if_pos hge] at h
            by_cases hg : lim ≤ (getResults (heapPush lim heap ⟨choice, score⟩)).length ∧
                ((getResults (heapPush lim heap ⟨choice, score⟩)).all
                  (fun r => decide (r.score = 100)) = true)
            · rw [if_pos hg] at h
              injection h with h
              injection h with h
              subst h
              exact chain'_take (chain'_sortResults _) lim
            · rw [if_neg hg] at h
              exact ih (i + 1) (pm + 1) _ out h
          · rw [if_neg hge] at h
            exact ih (i + 1) (pm + 1) _ out h
        · rw [if_neg h100] at h
          exact ih (i + 1) pm _ out h


theorem chunkOuter_ok_sorted {ε : Type} (q : List Char) (arr : JSArr) (scorer : Scorer ε)
    (lim chunkSize : ℕ) :
    ∀ (fuel start processed pm : ℕ) (heap res : List ExtractResult),
      chunkOuter q arr scorer lim chunkSize fuel start processed pm heap = .ok res →
      res.Chain' resultLe := by
  intro fuel
  induction fuel with
  | zero =>
    intro start processed pm heap res h
    rw [chunkOuter] at h
    injection h with h
    subst h
    exact chain'_take (chain'_sortResults heap) lim
  | succ fuel ih =>
    intro start processed pm heap res h
    rw [chunkOuter] at h
    try dsimp only at h
    by_cases hstart : start < arr.size
    · rw [if_pos hstart] at h
      set E := min (start + chunkSize) arr.size with hE
      rcases hci : chunkInner q arr scorer lim (E - start) start pm heap
        with e | (out | ⟨pm2, heap2⟩)
      · rw [hci] at h
        simp at h
      · rw [hci] at h
        dsimp only at h
        injection h with h
        subst h
        exact chunkInner_ok_sorted q arr scorer lim (E - start) start pm heap out hci
      · rw [hci] at h
        dsimp only at h
        set P := processed + (E - start) with hP
        by_cases hp : (P : ℚ) > (arr.size : ℚ) * 0.2
        · rw [if_pos hp] at h
          by_cases hg2 : lim ≤ (getResults heap2).length
          · rw [if_pos hg2] at h
            by_cases hm : optScore (getResults heap2)[lim - 1]? > (93 : ℚ)
            · rw [if_pos hm] at h
              rcases hsl : sampleChunksLoop q arr scorer lim chunkSize P
                  (min 2 ((arr.size - P) / chunkSize)) 0 heap2 with e | hp2
              · rw [hsl] at h
                simp at h
              · rw [hsl] at h
                dsimp only at h
                injection h with h
                subst h
                exact chain'_take (chain'_sortResults hp2) lim
            · rw [if_neg hm] at h
              exact ih (start + chunkSize) P pm2 heap2 res h
          · rw [if_neg hg2] at h
            exact ih (start + chunkSize) P pm2 heap2 res h
        · rw [if_neg hp] at h
          exact ih (start + chunkSize) P pm2 heap2 res h
    · rw [if_neg hstart] at h
      injection h with h
      subst h
      exact chain'_take (chain'_sortResults heap) lim

theorem extract_ok_sorted {ε : Type} (query : List Char) (choices : JSArr)
    (scorer : Scorer ε) (limit : ℤ) (res : List ExtractResult)
    (h : extract query choices scorer limit = .ok res) : res.Chain' resultLe := by
  unfold extract at h
  by_cases hsz : choices.size = 0
  · rw [if_pos hsz] at h
    injection h with h
    subst h
    simp
  · rw [if_neg hsz] at h
    by_cases hneg : limit ≤ 0
    · rw [if_pos hneg] at h
      injection h with h
      subst h
      simp
    · rw [if_neg hneg] at h
      dsimp only at h
      set L := (if limit > (choices.size : ℤ) then (choices.size : ℤ) else limit) with hL
      by_cases htier1 : (choices.size : ℤ) ≤ L * 2
      · rw [if_pos htier1] at h
        rcases hsl : scoreLoopSmall query choices scorer choices.size 0 [] with e | results
        · rw [hsl] at h
          simp at h
        · rw [hsl] at h
          dsimp only at h
          injection h with h
          subst h
          exact chain'_take (chain'_sortResults results) L.toNat
      · rw [if_neg htier1] at h
        by_cases htier2 : choices.size > 8000
        · rw [if_pos htier2] at h
          unfold extractChunked at h
          dsimp only at h
          exact chunkOuter_ok_sorted query choices scorer L.toNat _ choices.size 0 0 0 [] res h
        · rw [if_neg htier2] at h
          exact mediumLoop_ok_sorted query choices scorer L.toNat choices.size 0 0 [] res h


/-- C2 (amended): every successful `extract` output is ordered by the
tie-breaking comparator: each adjacent pair either has scores within
0.001 of each other and candidate texts in ascending lexicographic
order, or has strictly descending scores.  The spec's unqualified
"sorted by descending score" fails at sub-0.001 score differences. -/
theorem c2_extract_comparator_sorted {ε : Type} (query : List Char) (choices : JSArr)
    (scorer : Scorer ε) (limit : ℤ) (res : List ExtractResult)
    (h : extract query choices scorer limit = .ok res) :
    res.Chain' (fun x y => (|x.score - y.score| < 0.001 ∧ x.choice ≤ y.choice) ∨
      (¬|x.score - y.score| < 0.001 ∧ y.score < x.score)) :=
  (extract_ok_sorted query choices scorer limit res h).imp fun _ _ hab => resultLe_elim hab

theorem c2_extract_comparator_sorted_witness :
    List.Chain' (fun x y : ExtractResult =>
      (|x.score - y.score| < 0.001 ∧ x.choice ≤ y.choice) ∨
      (¬|x.score - y.score| < 0.001 ∧ y.score < x.score))
      [⟨['a'], 199999 / 2000⟩, ⟨['b'], 100⟩] :=
  c2_extract_comparator_sorted [] c2Arr c2Scorer 2
    [⟨['a'], 199999 / 2000⟩, ⟨['b'], 100⟩] (by with_unfolding_all rfl)

/-- C2 counterexample: with candidate `"a"` scoring 99.9995 and `"b"`
scoring 100, `extract` (limit 2) returns `"a"` first — the tie-breaking
comparator treats the 0.0005 difference as a tie and orders by text — so
the output scores are strictly ascending, not descending. -/
theorem c2_descending_counterexample :
    extract [] c2Arr c2Scorer 2 =
      .ok [⟨['a'], 199999 / 2000⟩, ⟨['b'], 100⟩] ∧
    ¬ List.Chain' (fun x y : ExtractResult => y.score ≤ x.score)
      [⟨['a'], 199999 / 2000⟩, ⟨['b'], 100⟩] := by
  constructor
  · with_unfolding_all rfl
  · intro hc
    have := List.chain'_cons.mp hc
    norm_num at this


theorem scoreLoopSmall_first_error {ε : Type} (q : List Char) (arr : JSArr)
    (scorer : Scorer ε) (e : ε) (i : ℕ) (c : List Char) (fuel : ℕ)
    (results : List ExtractResult) (hi : arr.get? i = some c)
    (he : scorer q c = .error e) :
    scoreLoopSmall q arr scorer (fuel + 1) i results = .error e := by
  rw [scoreLoopSmall, hi]
  dsimp only
  rw [he]

theorem mediumLoop_first_error {ε : Type} (q : List Char) (arr : JSArr)
    (scorer : Scorer ε) (lim : ℕ) (e : ε) (i : ℕ) (c : List Char) (fuel pm : ℕ)
    (heap : List ExtractResult) (hi : arr.get? i = some c)
    (he : scorer q c = .error e) :
    mediumLoop q arr scorer lim (fuel + 1) i pm heap = .error e := by
  rw [mediumLoop, hi]
  try dsimp only
  rw [he]

theorem chunkInner_first_error {ε : Type} (q : List Char) (arr : JSArr)
    (scorer : Scorer ε) (lim : ℕ) (e : ε) (i : ℕ) (c : List Char) (fuel pm : ℕ)
    (heap : List ExtractResult) (hi : arr.get? i = some c)
    (he : scorer q c = .error e) :
    chunkInner q arr scorer lim (fuel + 1) i pm heap = .error e := by
  rw [chunkInner, hi]
  try dsimp only
  rw [he]

theorem chunkOuter_first_error {ε : Type} (q : List Char) (arr : JSArr)
    (scorer : Scorer ε) (lim chunkSize : ℕ) (e : ε) (c0 : List Char)
    (fuel processed pm : ℕ) (heap : List ExtractResult)
    (hne : 0 < arr.size) (hcs : 0 < chunkSize)
    (hc0 : arr.get? 0 = some c0) (he : scorer q c0 = .error e) :
    chunkOuter q arr scorer lim chunkSize (fuel + 1) 0 processed pm heap = .error e := by
  rw [chunkOuter]
  try dsimp only
  rw [if_pos hne]
  obtain ⟨k, hk⟩ : ∃ k, min (0 + chunkSize) arr.size - 0 = k + 1 :=
    ⟨min (0 + chunkSize) arr.size - 1, by omega⟩
  rw [hk, chunkInner_first_error q arr scorer lim e 0 c0 k pm heap hc0 he]

theorem extractChunked_first_error {ε : Type} (q : List Char) (choices : JSArr)
    (scorer : Scorer ε) (lim : ℕ) (e : ε) (c0 : List Char)
    (hne : 0 < choices.size) (hc0 : choices.get? 0 = some c0)
    (he : scorer q c0 = .error e) :
    extractChunked q choices scorer lim = .error e := by
  unfold extractChunked
  dsimp only
  obtain ⟨m, hm⟩ : ∃ m, choices.size = m + 1 := ⟨choices.size - 1, by omega⟩
  rw [hm]
  refine chunkOuter_first_error q choices scorer lim _ e c0 m 0 0 [] (by omega) ?_ hc0 he
  split
  · norm_num
  · split
    · norm_num
    · split <;> norm_num

/-- C7: a scorer that fails on every call makes both `extract` (positive
limit, non-empty array) and `extractOne` (non-empty array) fail with that
same error, never an empty or partial result. -/
theorem c7_error_propagation {ε : Type} (query : List Char) (choices : JSArr)
    (scorer : Scorer ε) (e : ε) (limit : ℤ) (rand : ℕ → ℕ)
    (herr : ∀ a b, scorer a b = .error e)
    (hne : 0 < choices.size) (hlim : 0 < limit) :
    extract query choices scorer limit = .error e ∧
    extractOne query choices scorer rand = .error e := by
  obtain ⟨c0, hc0⟩ := choices.get_of_lt hne
  constructor
  · unfold extract
    rw [if_neg (by omega : ¬ choices.size = 0), if_neg (by omega : ¬ limit ≤ 0)]
    dsimp only
    by_cases htier1 : ((choices.size : ℕ) : ℤ) ≤
        (if limit > (choices.size : ℤ) then (choices.size : ℤ) else limit) * 2
    · rw [if_pos htier1]
      obtain ⟨m, hm⟩ : ∃ m, choices.size = m + 1 := ⟨choices.size - 1, by omega⟩
      rw [hm, scoreLoopSmall_first_error query choices scorer e 0 c0 m [] hc0
        (herr query c0)]
    · rw [if_neg htier1]
      by_cases htier2 : choices.size > 8000
      · rw [if_pos htier2]
        exact extractChunked_first_error query choices scorer _ e c0 hne hc0 (herr query c0)
      · rw [if_neg htier2]
        obtain ⟨m, hm⟩ : ∃ m, choices.size = m + 1 := ⟨choices.size - 1, by omega⟩
        rw [hm]
        exact mediumLoop_first_error query choices scorer _ e 0 c0 m 0 [] hc0 (herr query c0)
  · unfold extractOne
    rw [if_neg (by omega : ¬ choices.size = 0), hc0]
    dsimp only
    rw [herr query c0]

theorem c7_error_propagation_witness :
    extract ['q'] (JSArr.ofList [['a']]) (fun _ _ => (.error () : Except Unit ℚ)) 1 =
      .error () ∧
    extractOne ['q'] (JSArr.ofList [['a']]) (fun _ _ => (.error () : Except Unit ℚ))
      (fun _ => 0) = .error () :=
  c7_error_propagation ['q'] (JSArr.ofList [['a']]) (fun _ _ => (.error () : Except Unit ℚ))
    () 1 (fun _ => 0) (fun _ _ => rfl) (by decide) (by decide)


theorem extractOneChunked_rand_irrel {ε : Type} (q : List Char) (choices : JSArr)
    (scorer : Scorer ε) (randA randB : ℕ → ℕ) (ic : List Char) (s0 : ℚ)
    (hsz : choices.size ≤ 100000) :
    extractOneChunked q choices scorer randA ic s0 =
      extractOneChunked q choices scorer randB ic s0 := by
  unfold extractOneChunked
  dsimp only
  by_cases h20 : choices.size > 20000
  · simp only [if_pos h20]
    set A := (if choices.size > 200000 then 50 else if choices.size > 100000 then 30
      else if choices.size > 50000 then 20 else 15) with hA
    rcases hse : sampleEvenLoop q choices scorer A A 0 (ic, s0) with e | (d | b1)
    · rfl
    · rfl
    · dsimp only
      rcases hsl : sampleListLoop q choices scorer (sampleIndicesOf choices.size) b1
        with e | (d | b2)
      · rfl
      · rfl
      · dsimp only
        have hneg : ¬(b2.2 > (98 : ℚ) ∧ choices.size > 100000) :=
          fun hc => absurd hc.2 (by omega)
        simp only [if_neg hneg]
  · simp only [if_neg h20]

/-- C6 (amended): `extract` is a pure function of its arguments in this
model (no random stream appears in it at all), and `extractOne` is
independent of the `Math.random` stream whenever the array has at most
100000 candidates; beyond that the random verification pass can change
the result (see the counterexample). -/
theorem c6_extractOne_rand_independent {ε : Type} (query : List Char) (choices : JSArr)
    (scorer : Scorer ε) (randA randB : ℕ → ℕ) (hsz : choices.size ≤ 100000) :
    extractOne query choices scorer randA = extractOne query choices scorer randB := by
  unfold extractOne
  by_cases h0 : choices.size = 0
  · simp only [if_pos h0]
  · simp only [if_neg h0]
    rcases hc0 : choices.get? 0 with _ | c0
    · rfl
    · dsimp only
      rcases hs : scorer query c0 with e | b0
      · rfl
      · dsimp only
        by_cases hb : b0 = 100
        · simp only [if_pos hb]
        · simp only [if_neg hb]
          by_cases h20 : choices.size > 20000
          · simp only [if_pos h20,
              extractOneChunked_rand_irrel query choices scorer randA randB c0 b0 hsz]
          · simp only [if_neg h20]

theorem c6_extractOne_rand_independent_witness :
    extractOne ['q'] (JSArr.ofList [['a'], ['b']])
      (fun _ _ => (Except.ok 50 : Except Unit ℚ)) (fun _ => 0) =
    extractOne ['q'] (JSArr.ofList [['a'], ['b']])
      (fun _ _ => (Except.ok 50 : Except Unit ℚ)) (fun _ => 1) :=
  c6_extractOne_rand_independent ['q'] (JSArr.ofList [['a'], ['b']])
    (fun _ _ => (Except.ok 50 : Except Unit ℚ)) (fun _ => 0) (fun _ => 1) (by decide)

/-- C6 counterexample: on 100001 candidates with the exact match at index
3, the random verification pass makes `extractOne` return different
results for two different random streams, although the scorer is a pure
function of its two arguments. -/
theorem c6_rand_dependence_counterexample :
    extractOne c6Query c6Arr c6Scorer c6RandA = .ok (some ⟨['x'], 99⟩) ∧
    extractOne c6Query c6Arr c6Scorer c6RandB = .ok (some ⟨['q'], 100⟩) ∧
    (Except.ok (some ⟨['x'], 99⟩) : Except Unit (Option ExtractOneResult)) ≠
      .ok (some ⟨['q'], 100⟩) := by
  refine ⟨?_, ?_, by decide⟩
  · with_unfolding_all rfl
  · with_unfolding_all rfl


theorem oneInnerScan_no_update {ε : Type} (q : List Char) (arr : JSArr) (scorer : Scorer ε) :
    ∀ (fuel i : ℕ) (best : Best),
      (∀ j c, i ≤ j → j < i + fuel → arr.get? j = some c → scorer q c = .ok best.2) →
      oneInnerScan q arr scorer fuel i best = .ok (.inr best) := by
  intro fuel
  induction fuel with
  | zero =>
    intro i best hall
    rw [oneInnerScan]
  | succ fuel ih =>
    intro i best hall
    rcases hi : arr.get? i with _ | c
    · rw [oneInnerScan, hi]
      try dsimp only
      exact ih (i + 1) best (fun j c h1 h2 hc => hall j c (by omega) (by omega) hc)
    · rw [oneInnerScan, hi]
      try dsimp only
      rw [hall i c (le_refl i) (by omega) hi]
      dsimp only
      rw [if_neg (lt_irrefl best.2)]
      exact ih (i + 1) best (fun j c h1 h2 hc => hall j c (by omega) (by omega) hc)

theorem scanLoop_finds_perfect {ε : Type} (q : List Char) (arr : JSArr) (scorer : Scorer ε)
    (j : ℕ) (cj : List Char)
    (hbnd : ∀ i c s, arr.get? i = some c → scorer q c = .ok s → s ≤ 100)
    (hcj : arr.get? j = some cj) (h100 : scorer q cj = .ok 100) :
    ∀ (fuel i : ℕ) (best : Best), best.2 < 100 → i ≤ j → j < i + fuel →
      ∀ r, scanLoop q arr scorer fuel i best = .ok r → r.2 = 100 := by
  intro fuel
  induction fuel with
  | zero =>
    intro i best hb h1 h2 r h
    omega
  | succ fuel ih =>
    intro i best hb h1 h2 r h
    by_cases hij : i = j
    · subst hij
      rw [scanLoop, hcj] at h
      try dsimp only at h
      rw [h100] at h
      dsimp only at h
      rw [if_pos (show (100 : ℚ) > best.2 from hb), if_pos rfl] at h
      injection h with h
      subst h
      rfl
    · rcases hi : arr.get? i with _ | c
      · rw [scanLoop, hi] at h
        try dsimp only at h
        exact ih (i + 1) best hb (by omega) (by omega) r h
      · rw [scanLoop, hi] at h
        try dsimp only at h
        rcases hs : scorer q c with e | s
        · rw [hs] at h
          simp at h
        · rw [hs] at h
          dsimp only at h
          by_cases hgt : s > best.2
          · rw [if_pos hgt] at h
            by_cases hs100 : s = 100
            · rw [if_pos hs100] at h
              injection h with h
              subst h
              exact hs100
            · rw [if_neg hs100] at h
              have hsle := hbnd i c s hi hs
              exact ih (i + 1) (c, s) (lt_of_le_of_ne hsle hs100) (by omega) (by omega) r h
          · rw [if_neg hgt] at h
            exact ih (i + 1) best hb (by omega) (by omega) r h


/-- C1 (amended): on the linear-scan tier (at most 20000 candidates), if
some candidate equals a perfect match — the scorer gives it 100 and never
exceeds 100 — then a successful `extractOne` returns a result whose score
is exactly 100.  The sampling tiers above 20000 candidates do not give
this guarantee (see the counterexample). -/
theorem c1_small_tier_finds_exact {ε : Type} (query : List Char) (choices : JSArr)
    (scorer : Scorer ε) (rand : ℕ → ℕ) (j : ℕ) (cj : List Char)
    (o : Option ExtractOneResult)
    (hsz : choices.size ≤ 20000)
    (hbnd : ∀ i c s, choices.get? i = some c → scorer query c = .ok s → s ≤ 100)
    (hcj : choices.get? j = some cj) (h100 : scorer query cj = .ok 100)
    (hok : extractOne query choices scorer rand = .ok o) :
    ∃ res : ExtractOneResult, o = some res ∧ res.score = 100 := by
  have hjlt : j < choices.size := (choices.dense j).mp (by rw [hcj]; rfl)
  unfold extractOne at hok
  rw [if_neg (by omega : ¬ choices.size = 0)] at hok
  rcases hc0 : choices.get? 0 with _ | c0
  · have h0 := (choices.dense 0).mpr (by omega)
    rw [hc0] at h0
    simp at h0
  · rw [hc0] at hok
    dsimp only at hok
    rcases hs0 : scorer query c0 with e | b0
    · rw [hs0] at hok
      simp at hok
    · rw [hs0] at hok
      dsimp only at hok
      by_cases hb : b0 = 100
      · rw [if_pos hb] at hok
        injection hok with hok
        exact ⟨⟨c0, b0⟩, hok.symm, hb⟩
      · rw [if_neg hb] at hok
        rw [if_neg (by omega : ¬ choices.size > 20000)] at hok
        rcases hsl : scanLoop query choices scorer (choices.size - 1) 1 (c0, b0)
          with e | r
        · rw [hsl] at hok
          simp at hok
        · rw [hsl] at hok
          dsimp only at hok
          injection hok with hok
          have hb0lt : b0 < 100 := lt_of_le_of_ne (hbnd 0 c0 b0 hc0 hs0) hb
          have hj1 : 1 ≤ j := by
            rcases Nat.eq_zero_or_pos j with hz | hz
            · exfalso
              subst hz
              rw [hcj] at hc0
              injection hc0 with hc0
              subst hc0
              rw [h100] at hs0
              injection hs0 with hs0
              exact hb hs0.symm
            · omega
          have hr := scanLoop_finds_perfect query choices scorer j cj hbnd hcj h100
            (choices.size - 1) 1 (c0, b0) hb0lt hj1 (by omega) r hsl
          exact ⟨⟨r.1, r.2⟩, hok.symm, hr⟩

theorem c1_small_tier_finds_exact_witness :
    ∃ res : ExtractOneResult,
      (some ⟨['q'], 100⟩ : Option ExtractOneResult) = some res ∧ res.score = 100 :=
  c1_small_tier_finds_exact ['q'] (JSArr.ofList [['a'], ['q']])
    (fun q c => if c = q then (.ok 100 : Except Unit ℚ) else .ok 50) (fun _ => 0)
    1 ['q'] (some ⟨['q'], 100⟩) (by decide)
    (by
      intro i c s hc hs
      dsimp only at hs
      split at hs <;> injection hs with hs <;> rw [← hs] <;> norm_num)
    (by decide) (by decide) (by with_unfolding_all rfl)


/-- C1 counterexample: 20001 candidates with the exact match at index
10002, scored 100 on equality and 98 otherwise.  The chunked strategy's
upfront samples, first chunk and early-termination strategic sampling
all miss index 10002, so `extractOne` returns a filler at 98 — not 100 —
although a perfect match exists. -/
theorem c1_sampling_skips_exact_match :
    c1Arr.get? 10002 = some c1Query ∧
    c1Scorer c1Query c1Query = .ok 100 ∧
    extractOne c1Query c1Arr c1Scorer (fun _ => 0) = .ok (some ⟨['x'], 98⟩) ∧
    ((98 : ℚ) ≠ 100) := by
  refine ⟨by with_unfolding_all rfl, by with_unfolding_all rfl, ?_, by norm_num⟩
  have hinner : oneInnerScan c1Query c1Arr c1Scorer 10000 1 (['x'], 98) =
      .ok (.inr (['x'], 98)) := by
    apply oneInnerScan_no_update
    intro j c h1 h2 hc
    have hc' : (if j < 20001 then (if j = 10002 then some c1Query else some ['x']) else none)
        = some c := hc
    rw [if_pos (by omega), if_neg (by omega)] at hc'
    injection hc' with hc'
    subst hc'
    rfl
  have hchunk : extractOneChunked c1Query c1Arr c1Scorer (fun _ => 0) ['x'] 98 =
      .ok (['x'], 98) := by
    unfold extractOneChunked
    dsimp only
    rw [if_pos (show c1Arr.size > 20000 by decide)]
    rw [show (if c1Arr.size > 200000 then (50 : ℕ) else if c1Arr.size > 100000 then 30
      else if c1Arr.size > 50000 then 20 else 15) = 15 from by decide]
    rw [show sampleEvenLoop c1Query c1Arr c1Scorer 15 15 0 (['x'], 98) =
      .ok (.inr (['x'], 98)) from by with_unfolding_all rfl]
    dsimp only
    rw [show sampleListLoop c1Query c1Arr c1Scorer (sampleIndicesOf c1Arr.size) (['x'], 98) =
      .ok (.inr (['x'], 98)) from by with_unfolding_all rfl]
    dsimp only
    rw [if_neg (show ¬ ((98 : ℚ) > 98 ∧ c1Arr.size > 100000) from
      fun hcon => absurd hcon.1 (by norm_num))]
    dsimp only
    rw [show (if c1Arr.size > 200000 then (20000 : ℕ) else if c1Arr.size > 100000 then 15000
      else 10000) = 10000 from by decide]
    rw [show (if c1Arr.size > 100000 then (c1Arr.size : ℚ) * 0.1
      else (c1Arr.size : ℚ) * 0.15) = (c1Arr.size : ℚ) * 0.15 from if_neg (by decide)]
    rw [show c1Arr.size = 20000 + 1 from rfl]
    rw [oneChunkOuter]
    try dsimp only
    rw [if_pos (show (1 : ℕ) < c1Arr.size by decide)]
    rw [show min (1 + 10000) c1Arr.size - 1 = 10000 from by decide]
    rw [hinner]
    dsimp only
    rw [if_pos (show ((1 + 10000 : ℕ) : ℚ) > ((20000 + 1 : ℕ) : ℚ) * 0.15 from by
      push_cast
      norm_num)]
    rw [if_pos (show (98 : ℚ) > 97 by norm_num)]
    rw [show min 200 ((c1Arr.size - (1 + 10000)) / 50) = 200 from by decide]
    rw [show (c1Arr.size - (1 + 10000)) / 200 = 50 from by decide]
    rw [show oneStrategic c1Query c1Arr c1Scorer (1 + 10000) 50 200 0 (['x'], 98) =
      .ok (['x'], 98) from by with_unfolding_all rfl]
  show extractOne c1Query c1Arr c1Scorer (fun _ => 0) = .ok (some ⟨['x'], 98⟩)
  unfold extractOne
  rw [if_neg (show ¬ c1Arr.size = 0 by decide)]
  rw [show c1Arr.get? 0 = some ['x'] from by with_unfolding_all rfl]
  dsimp only
  rw [show c1Scorer c1Query ['x'] = .ok 98 from rfl]
  dsimp only
  rw [if_neg (show ¬ (98 : ℚ) = 100 by norm_num),
    if_pos (show c1Arr.size > 20000 by decide)]
  rw [hchunk]

end NpmFuzzy
